import Mathlib

/-!
# Word ladder: a shallow embedding of `word_ladder.cpp`

The development follows `src/src/word_ladder.cpp` function by function.

Modelling conventions.

* `std::string` is `String`; one `Char` stands for one C++ `char`.
* `std::unordered_set<std::string>` is a `List String` kept free of repetitions by
  `set_insert`; `std::unordered_map<K, V>` is an association list updated through
  `map_update`.  The C++ iteration order of the unordered containers is unspecified;
  the lists iterate in order of first insertion.  The lexicon handed to `generate`
  is an arbitrary list: its order stands for the iteration order of the caller's set.
* `std::size_t` depths are `Nat`: a depth never exceeds the number of words stored.
* `adjacency_list_.at` and `depth.at` throw `std::out_of_range`; the functions that use
  them return `Except Error`.
* The `while` loop of `bfs_find_depth` and the recursion of `dfs_find_path` are driven by
  a fuel counter; `Error.out_of_fuel` marks an exhausted counter and is shown
  never to occur for the fuel chosen by `path_search`.
* `bfs_find_depth` binds `pop_word` by reference to `queue.front()` and pops the queue
  before using it (lines 64-65), so lines 66 and 68 read a string that `queue.pop()` has
  destroyed; `read_after_pop` gives what such a read yields.
-/

namespace word_ladder

/-! ## Containers -/

/-- The `find` member of `std::unordered_map`: the value bound to `key`, if any. -/
def map_find {β : Type} : List (String × β) → String → Option β
  | [], _ => none
  | (k, v) :: rest, key => if k = key then some v else map_find rest key

/-- The `contains` member of `std::unordered_map`. -/
def map_contains {β : Type} (m : List (String × β)) (key : String) : Bool :=
  (map_find m key).isSome

/-- One write through a key of an `std::unordered_map`: the binding of `key` is replaced
by `f` of its old value, or a binding to `f none` is created when the key is absent. -/
def map_update {β : Type} : List (String × β) → String → (Option β → β) → List (String × β)
  | [], key, f => [(key, f none)]
  | (k, v) :: rest, key, f =>
    if k = key then (k, f (some v)) :: rest else (k, v) :: map_update rest key f

/-- The `insert`/`emplace` member of `std::unordered_set<std::string>`. -/
def set_insert (s : List String) (word : String) : List String :=
  if word ∈ s then s else s ++ [word]

/-- The errors a call can end with. -/
inductive Error where
  | out_of_range
  | out_of_fuel
  deriving DecidableEq, Repr

/-- The `at` member of `std::unordered_map`, which throws on a missing key. -/
def map_at {β : Type} (m : List (String × β)) (key : String) : Except Error β :=
  match map_find m key with
  | some v => .ok v
  | none => .error .out_of_range

/-! ## The graph object -/

/-- The data members of `class graph`. -/
structure graph where
  ladders_ : List (List String)
  adjacency_list_ : List (String × List String)
  from_ : String
  lexicon_ : List String
  deriving DecidableEq, Repr

/-- The static member `graph::lexicon_filter` (lines 98-112). -/
def lexicon_filter (from_ : String) (lexicon : List String) : List String :=
  lexicon.foldl
    (fun new_lexicon_set word =>
      if word.length = from_.length then set_insert new_lexicon_set word
      else new_lexicon_set)
    []

/-- The key `word.substr(0, i) + '*' + word.substr(i + 1)` of line 118. -/
def wildcard (word : String) (i : Nat) : String :=
  String.mk (word.data.take i ++ '*' :: word.data.drop (i + 1))

/-- First loop of `add_edges` (lines 116-120): every word is pushed onto the bucket
of each of its wildcard keys. -/
def fill_combo_dict (lexicon_ : List String) : List (String × List String) :=
  lexicon_.foldl
    (fun dict word =>
      (List.range word.length).foldl
        (fun dict i => map_update dict (wildcard word i) (fun o => o.getD [] ++ [word]))
        dict)
    []

/-- The statement `adjacency_list_[a].emplace(b)` of lines 128-129. -/
def adj_emplace (adj : List (String × List String)) (a b : String) :
    List (String × List String) :=
  map_update adj a (fun o => set_insert (o.getD []) b)

/-- The loop over `it2` (lines 127-130) for one position `it1`. -/
def link_with (w1 : String) (later : List String) (adj : List (String × List String)) :
    List (String × List String) :=
  later.foldl (fun adj w2 => adj_emplace (adj_emplace adj w1 w2) w2 w1) adj

/-- The loops over `it1` and `it2` (lines 126-131) for one bucket. -/
def link_bucket : List String → List (String × List String) → List (String × List String)
  | [], adj => adj
  | w1 :: later, adj => link_bucket later (link_with w1 later adj)

/-- The member `graph::add_edges` (lines 114-133). -/
def add_edges (g : graph) : graph :=
  let all_combo_dict := fill_combo_dict g.lexicon_
  let adj1 := g.lexicon_.foldl
    (fun adj word => map_update adj word (fun o => o.getD [])) g.adjacency_list_
  let adj2 := all_combo_dict.foldl
    (fun adj transformations => link_bucket transformations.2 adj) adj1
  { g with adjacency_list_ := adj2 }

/-- The constructor `graph::graph` (lines 34-38). -/
def graph.new (from_ : String) (lexicon : List String) : graph :=
  add_edges
    { ladders_ := [], adjacency_list_ := [], from_ := from_,
      lexicon_ := lexicon_filter from_ lexicon }

/-- The static member `graph::is_one_char_diff` (lines 135-149); the loop is
`diff_loop`, which carries `diff_count`. -/
def diff_loop : List Char → List Char → Nat → Option Nat
  | c1 :: r1, c2 :: r2, diff_count =>
    if c1 ≠ c2 then
      if diff_count + 1 > 1 then none else diff_loop r1 r2 (diff_count + 1)
    else diff_loop r1 r2 diff_count
  | _, _, diff_count => some diff_count

/-- The static member `graph::is_one_char_diff` (lines 135-149). -/
def is_one_char_diff (word_1 word_2 : String) : Bool :=
  if word_1.length ≠ word_2.length then false
  else
    match diff_loop word_1.data word_2.data 0 with
    | none => false
    | some diff_count => diff_count == 1

/-! ## Breadth-first search -/

/-- The expression `depth[key]` read as a value: the bound value and the map, to which
a zero binding is added when the key is absent. -/
def map_index (depth : List (String × Nat)) (key : String) : Nat × List (String × Nat) :=
  match map_find depth key with
  | some v => (v, depth)
  | none => (0, map_update depth key (fun _ => 0))

/-- The `for` loop of `bfs_find_depth` (lines 66-72) over the neighbours of `pop_word`.
The result is `true` when the loop left through `return true`. -/
def bfs_scan (to_ pop_word : String) :
    List String → List String → List (String × Nat) → Bool × List String × List (String × Nat)
  | [], queue, depth => (false, queue, depth)
  | word :: rest, queue, depth =>
    if map_contains depth word then bfs_scan to_ pop_word rest queue depth
    else
      let r := map_index depth pop_word
      let depth1 := map_update r.2 word (fun _ => r.1 + 1)
      let queue1 := queue ++ [word]
      if word = to_ then (true, queue1, depth1)
      else bfs_scan to_ pop_word rest queue1 depth1

/-- What the reference `pop_word` of line 64 reads after `queue.pop()` of line 65 has
destroyed the front element. A word of at most 15 characters is stored inside the string
object itself and is read back unchanged. A longer word was stored in a buffer that the
destructor released: what is read there is no key of the adjacency map (`none`). -/
def read_after_pop (word : String) : Option String :=
  if word.length ≤ 15 then some word else none

/-- The `while` loop of `bfs_find_depth` (lines 63-74). The front element is popped and
`pop_word` is what the reference to it still reads; the checked lookup of line 66 throws
when that is no key. -/
def bfs_loop (adj : List (String × List String)) (to_ : String) :
    Nat → List String → List (String × Nat) → Except Error (Bool × List (String × Nat))
  | _, [], depth => .ok (false, depth)
  | 0, _ :: _, _ => .error .out_of_fuel
  | fuel + 1, front :: queue, depth =>
    match read_after_pop front with
    | none => .error .out_of_range
    | some pop_word =>
      match map_at adj pop_word with
      | .error e => .error e
      | .ok neighbours =>
        match bfs_scan to_ pop_word neighbours queue depth with
        | (true, _, depth1) => .ok (true, depth1)
        | (false, queue1, depth1) => bfs_loop adj to_ fuel queue1 depth1

/-- Fuel for the `while` loop: one step per neighbour entry of the graph, and one for
the start word. -/
def bfs_fuel (adj : List (String × List String)) : Nat :=
  (adj.map (fun kv => kv.2.length)).sum + 1

/-- The member `graph::bfs_find_depth` (lines 56-75); the depth map is an in-out
parameter and is returned next to the result. -/
def bfs_find_depth (g : graph) (to_ : String) (depth : List (String × Nat)) :
    Except Error (Bool × List (String × Nat)) :=
  bfs_loop g.adjacency_list_ to_ (bfs_fuel g.adjacency_list_) [g.from_] depth

/-! ## Depth-first enumeration -/

/-- The `for` loop of `dfs_find_path` (lines 87-91); `call` is the recursive call and
the state is the pair of `current` and `ladders_`. -/
def dfs_each (call : String → List String × List (List String) →
      Except Error (List String × List (List String)))
    (depth : List (String × Nat)) (from_ : String) :
    List String → List String × List (List String) →
      Except Error (List String × List (List String))
  | [], st => .ok st
  | word :: rest, st =>
    if map_contains depth word then
      match map_at depth from_ with
      | .error e => .error e
      | .ok df =>
        match map_at depth word with
        | .error e => .error e
        | .ok dw =>
          if df + 1 = dw then
            match call word st with
            | .error e => .error e
            | .ok st1 => dfs_each call depth from_ rest st1
          else dfs_each call depth from_ rest st
    else dfs_each call depth from_ rest st

/-- The member `graph::dfs_find_path` (lines 77-96) on the state `(current, ladders_)`. -/
def dfs_find_path (adj : List (String × List String)) (to_ : String)
    (depth : List (String × Nat)) :
    Nat → String → List String × List (List String) →
      Except Error (List String × List (List String))
  | 0, _, _ => .error .out_of_fuel
  | fuel + 1, from_, (current, ladders) =>
    if ¬ map_contains depth from_ then .ok (current, ladders)
    else
      let current1 := current ++ [from_]
      if from_ ≠ to_ then
        match map_at adj from_ with
        | .error e => .error e
        | .ok neighbours =>
          match dfs_each (dfs_find_path adj to_ depth fuel) depth from_ neighbours
              (current1, ladders) with
          | .error e => .error e
          | .ok (current2, ladders2) => .ok (current2.dropLast, ladders2)
      else .ok (current1.dropLast, ladders ++ [current1])

/-- Fuel for the recursion: one more than the number of words with a depth. -/
def dfs_fuel (depth : List (String × Nat)) : Nat :=
  depth.length + 1

/-! ## Sorting and the public interface -/

/-- The algorithm `std::lexicographical_compare` with the element comparison `lt`. -/
def lexicographical_compare {α : Type} (lt : α → α → Bool) : List α → List α → Bool
  | _, [] => false
  | [], _ :: _ => true
  | a :: as, b :: bs =>
    if lt a b then true else if lt b a then false else lexicographical_compare lt as bs

/-- The comparison `operator<` of `std::string`: lexicographic on the characters. -/
def string_lt (a b : String) : Bool :=
  lexicographical_compare (fun c d => decide (c < d)) a.data b.data

/-- The comparison `operator<` of `std::vector<std::string>`, which is
`std::lexicographical_compare` with `operator<` of `std::string`. -/
def ladder_lt (a b : List String) : Bool :=
  lexicographical_compare string_lt a b

/-- The call `std::ranges::sort(ladders_)`: the ladders in non-decreasing order. -/
def sort_ladders (ladders : List (List String)) : List (List String) :=
  List.insertionSort (fun a b => ladder_lt b a = false) ladders

/-- The member `graph::path_search` (lines 40-54): the returned list and the graph
after the call. -/
def path_search (g : graph) (to_ : String) : Except Error (List (List String) × graph) :=
  let depth : List (String × Nat) := [(g.from_, 0)]
  match bfs_find_depth g to_ depth with
  | .error e => .error e
  | .ok (false, _) => .ok ([], { g with ladders_ := [] })
  | .ok (true, depth1) =>
    match dfs_find_path g.adjacency_list_ to_ depth1 (dfs_fuel depth1) g.from_
        ([], g.ladders_) with
    | .error e => .error e
    | .ok (_, ladders1) =>
      let sorted := sort_ladders ladders1
      .ok (sorted, { g with ladders_ := sorted })

/-- The function `word_ladder::generate` (lines 24-32). -/
def generate (from_ to_ : String) (lexicon : List String) :
    Except Error (List (List String)) :=
  match path_search (graph.new from_ lexicon) to_ with
  | .error e => .error e
  | .ok (ladders, _) => .ok ladders

/-! ## Vocabulary of the specification -/

/-- The neighbour set of `u` in `adj` contains `v`: an edge of the adjacency graph. -/
def has_edge (adj : List (String × List String)) (u v : String) : Bool :=
  match map_find adj u with
  | some ns => decide (v ∈ ns)
  | none => false

/-- A path of the adjacency graph from `s` to `t`: a word list that starts with `s`, ends
with `t` and whose consecutive words are joined by an edge. -/
def is_path (adj : List (String × List String)) (s t : String) (p : List String) : Prop :=
  p.head? = some s ∧ p.getLast? = some t ∧ List.Chain' (fun u v => has_edge adj u v = true) p

/-- Number of positions at which two character sequences disagree, counted in lockstep. -/
def mismatch_count : List Char → List Char → Nat
  | c :: cs, d :: ds => (if c = d then 0 else 1) + mismatch_count cs ds
  | _, _ => 0

/-- Two words of equal length that differ in exactly one character position. -/
def differ_in_one_position (a b : String) : Prop :=
  a.length = b.length ∧ mismatch_count a.data b.data = 1

/-- Two words occupy different positions of one bucket: the pairs that lines 126-131
visit, in either order. -/
def bucket_pair : List String → String → String → Prop
  | [], _, _ => False
  | w1 :: later, u, v => (u = w1 ∧ v ∈ later) ∨ (v = w1 ∧ u ∈ later) ∨ bucket_pair later u v

/-! ## Invariants used in the proofs -/

/-- Invariant of the adjacency map while `add_edges` runs over the lexicon `L`: every key
is a word of `L`, and every neighbour list is free of repetitions and holds words of `L`. -/
def adj_inv (L : List String) (adj : List (String × List String)) : Prop :=
  (∀ k, map_contains adj k = true → k ∈ L) ∧ ∀ kv ∈ adj, kv.2.Nodup ∧ ∀ v ∈ kv.2, v ∈ L

/-- The word `w` is reached from `s` by a walk of exactly `n` edges. -/
inductive reach (adj : List (String × List String)) (s : String) : String → Nat → Prop
  | refl : reach adj s s 0
  | step {u v : String} {n : Nat} :
      reach adj s u n → has_edge adj u v = true → reach adj s v (n + 1)

/-- Number of neighbour entries of the graph whose word has no depth yet. -/
def unseen (adj : List (String × List String)) (depth : List (String × Nat)) : Nat :=
  (adj.map (fun kv => kv.2)).flatten.countP (fun w => !map_contains depth w)

/-- Invariant of the breadth-first search from `s` with the words `q` still to be expanded
(the word being expanded included) and the depth map `dep`. -/
structure bfs_inv (adj : List (String × List String)) (s : String) (q : List String)
    (dep : List (String × Nat)) : Prop where
  start : map_find dep s = some 0
  keys : ∀ w, map_contains dep w = true → map_contains adj w = true
  queued : ∀ x ∈ q, ∃ dx, map_find dep x = some dx ∧
    ∀ w dw, map_find dep w = some dw → dw ≤ dx + 1
  sorted : q.Pairwise (fun x y =>
    ∀ dx dy, map_find dep x = some dx → map_find dep y = some dy → dx ≤ dy)
  finished : ∀ u du, map_find dep u = some du → u ∉ q →
    ∀ v, has_edge adj u v = true → ∃ dv, map_find dep v = some dv ∧ dv ≤ du + 1
  sound : ∀ w dw, map_find dep w = some dw → reach adj s w dw
  small : ∀ w dw, map_find dep w = some dw → dw < dep.length

/-- A word list that `dfs_find_path` follows: every step goes along an edge to a word one
level deeper, and the list stops at the first occurrence of `to_`. -/
def dag_path (adj : List (String × List String)) (to_ : String)
    (depth : List (String × Nat)) : List String → Prop
  | [] => False
  | [u] => u = to_ ∧ map_contains depth u = true
  | u :: w :: rest =>
    u ≠ to_ ∧ has_edge adj u w = true ∧
      (∃ du, map_find depth u = some du ∧ map_find depth w = some (du + 1)) ∧
      dag_path adj to_ depth (w :: rest)

/-- The positions, counted from zero, at which the words `a` and `b` carry different
characters. -/
def mismatch_positions (a b : String) : List Nat :=
  (List.range a.length).filter (fun i => decide (a.data[i]? ≠ b.data[i]?))

/-- Invariant of `all_combo_dict` while the first loop of `add_edges` runs: no bucket holds a
word twice, and every word of a bucket was pushed under the key of the bucket at an index
`j` recorded by `Q`. -/
def bucket_inv (Q : String → Nat → Prop) (dict : List (String × List String)) : Prop :=
  ∀ kv ∈ dict, kv.2.Nodup ∧ ∀ x ∈ kv.2, ∃ j, Q x j ∧ wildcard x j = kv.1

end word_ladder


/-! ## Containers: basic facts -/

namespace word_ladder

theorem map_find_update {β : Type} (m : List (String × β)) (key : String) (f : Option β → β)
    (k : String) :
    map_find (map_update m key f) k
      = if key = k then some (f (map_find m key)) else map_find m k := by
  induction m with
  | nil => simp [map_update, map_find]
  | cons kv rest ih =>
    obtain ⟨k0, v0⟩ := kv
    by_cases h0 : k0 = key
    · subst h0
      by_cases h1 : k0 = k <;> simp [map_update, map_find, h1]
    · by_cases h1 : k0 = k
      · subst h1
        simp [map_update, map_find, h0, Ne.symm h0]
      · simp [map_update, map_find, h0, h1, ih]

theorem map_find_mem {β : Type} (m : List (String × β)) (k : String) (v : β)
    (h : map_find m k = some v) : (k, v) ∈ m := by
  induction m with
  | nil => simp [map_find] at h
  | cons kv rest ih =>
    obtain ⟨k0, v0⟩ := kv
    by_cases h0 : k0 = k
    · simp [map_find, h0] at h
      simp [h0, h]
    · simp [map_find, h0] at h
      exact List.mem_cons_of_mem _ (ih h)

theorem map_update_all {β : Type} (P : String → β → Prop) (m : List (String × β))
    (key : String) (f : Option β → β) (hm : ∀ kv ∈ m, P kv.1 kv.2)
    (hf : P key (f (map_find m key))) :
    ∀ kv ∈ map_update m key f, P kv.1 kv.2 := by
  induction m with
  | nil =>
    intro kv hkv
    simp [map_update] at hkv
    subst hkv
    simpa [map_find] using hf
  | cons kv0 rest ih =>
    obtain ⟨k0, v0⟩ := kv0
    intro kv hkv
    by_cases h0 : k0 = key
    · simp [map_update, h0] at hkv
      simp [map_find, h0] at hf
      rcases hkv with rfl | hkv
      · exact hf
      · exact hm kv (List.mem_cons_of_mem _ hkv)
    · simp [map_update, h0] at hkv
      simp [map_find, h0] at hf
      rcases hkv with rfl | hkv
      · exact hm (k0, v0) (List.mem_cons_self _ _)
      · exact ih (fun kv h => hm kv (List.mem_cons_of_mem _ h)) hf kv hkv

theorem map_update_length {β : Type} (m : List (String × β)) (key : String)
    (f : Option β → β) :
    (map_update m key f).length = if map_contains m key then m.length else m.length + 1 := by
  induction m with
  | nil => simp [map_update, map_find, map_contains]
  | cons kv0 rest ih =>
    obtain ⟨k0, v0⟩ := kv0
    by_cases h0 : k0 = key
    · simp [map_update, map_find, map_contains, h0]
    · simp only [map_contains] at ih
      simp [map_update, map_find, map_contains, h0, ih]
      split <;> rfl

theorem set_insert_mem (s : List String) (w x : String) :
    x ∈ set_insert s w ↔ x ∈ s ∨ x = w := by
  unfold set_insert
  split
  · constructor
    · exact Or.inl
    · rintro (h | rfl)
      · exact h
      · assumption
  · simp

theorem set_insert_nodup (s : List String) (w : String) (h : s.Nodup) :
    (set_insert s w).Nodup := by
  unfold set_insert
  split
  · exact h
  · rename_i hw
    exact List.Nodup.append h (List.nodup_singleton w) (by simpa using hw)

theorem lexicon_filter_aux (from_ : String) (lexicon acc : List String) (w : String) :
    w ∈ lexicon.foldl
      (fun new_lexicon_set word =>
        if word.length = from_.length then set_insert new_lexicon_set word
        else new_lexicon_set) acc
      ↔ w ∈ acc ∨ (w ∈ lexicon ∧ w.length = from_.length) := by
  induction lexicon generalizing acc with
  | nil => simp
  | cons x rest ih =>
    simp only [List.foldl_cons, ih]
    by_cases hx : x.length = from_.length
    · simp only [hx, if_true, set_insert_mem, List.mem_cons]
      constructor
      · rintro ((h | rfl) | ⟨h1, h2⟩)
        · exact Or.inl h
        · exact Or.inr ⟨Or.inl rfl, hx⟩
        · exact Or.inr ⟨Or.inr h1, h2⟩
      · rintro (h | ⟨rfl | h1, h2⟩)
        · exact Or.inl (Or.inl h)
        · exact Or.inl (Or.inr rfl)
        · exact Or.inr ⟨h1, h2⟩
    · simp only [hx, if_false, List.mem_cons]
      constructor
      · rintro (h | ⟨h1, h2⟩)
        · exact Or.inl h
        · exact Or.inr ⟨Or.inr h1, h2⟩
      · rintro (h | ⟨rfl | h1, h2⟩)
        · exact Or.inl h
        · exact absurd h2 hx
        · exact Or.inr ⟨h1, h2⟩

theorem mem_lexicon_filter (from_ : String) (lexicon : List String) (w : String) :
    w ∈ lexicon_filter from_ lexicon ↔ w ∈ lexicon ∧ w.length = from_.length := by
  unfold lexicon_filter
  rw [lexicon_filter_aux]
  simp

theorem map_contains_update {β : Type} (m : List (String × β)) (key : String)
    (f : Option β → β) (k : String) :
    map_contains (map_update m key f) k = (decide (key = k) || map_contains m k) := by
  unfold map_contains
  rw [map_find_update]
  by_cases h : key = k <;> simp [h]

theorem has_edge_iff (adj : List (String × List String)) (u v : String) :
    has_edge adj u v = true ↔ ∃ ns, map_find adj u = some ns ∧ v ∈ ns := by
  unfold has_edge
  cases h : map_find adj u <;> simp

/-! ## Generic facts about loops written as folds -/

theorem foldl_preserves {α β : Type} (P : β → Prop) (f : β → α → β) (l : List α)
    (h : ∀ b, ∀ a ∈ l, P b → P (f b a)) : ∀ b, P b → P (l.foldl f b) := by
  induction l with
  | nil => intro b hb; simpa using hb
  | cons x rest ih =>
    intro b hb
    simp only [List.foldl_cons]
    exact ih (fun b a ha => h b a (List.mem_cons_of_mem _ ha)) _
      (h b x (List.mem_cons_self _ _) hb)

theorem foldl_reach {α β : Type} (Q : α → β → Prop) (f : β → α → β) (l : List α)
    (hmono : ∀ x b a, Q x b → Q x (f b a)) (hest : ∀ b a, a ∈ l → Q a (f b a)) :
    ∀ b, ∀ a ∈ l, Q a (l.foldl f b) := by
  induction l with
  | nil => intro b a ha; simp at ha
  | cons x rest ih =>
    intro b a ha
    simp only [List.foldl_cons]
    rcases List.mem_cons.1 ha with rfl | ha
    · exact foldl_preserves (Q a) f rest (fun b y _ hb => hmono a b y hb) _
        (hest b a (List.mem_cons_self _ _))
    · exact ih (fun b y hy => hest b y (List.mem_cons_of_mem _ hy)) _ a ha

theorem foldl_iff {α β : Type} (E : β → Prop) (R : α → Prop) (f : β → α → β)
    (h : ∀ b a, E (f b a) ↔ E b ∨ R a) :
    ∀ (l : List α) (b : β), E (l.foldl f b) ↔ E b ∨ ∃ a ∈ l, R a := by
  intro l
  induction l with
  | nil => intro b; simp
  | cons x rest ih =>
    intro b
    simp only [List.foldl_cons, ih, h, List.mem_cons]
    constructor
    · rintro ((hb | hx) | ⟨a, ha, hr⟩)
      · exact Or.inl hb
      · exact Or.inr ⟨x, Or.inl rfl, hx⟩
      · exact Or.inr ⟨a, Or.inr ha, hr⟩
    · rintro (hb | ⟨a, rfl | ha, hr⟩)
      · exact Or.inl (Or.inl hb)
      · exact Or.inl (Or.inr hr)
      · exact Or.inr ⟨a, ha, hr⟩

end word_ladder


/-! ## The adjacency graph built by `add_edges` -/

namespace word_ladder

theorem has_edge_adj_emplace (adj : List (String × List String)) (a b u v : String) :
    has_edge (adj_emplace adj a b) u v = true ↔ has_edge adj u v = true ∨ (u = a ∧ v = b) := by
  unfold has_edge adj_emplace
  rw [map_find_update]
  by_cases h : a = u
  · subst h
    cases hf : map_find adj a with
    | none => simp [set_insert_mem, set_insert]
    | some ns => simp [set_insert_mem]
  · have h2 : ¬ u = a := fun e => h e.symm
    simp [h, h2]

theorem has_edge_link_with (w1 : String) (later : List String)
    (adj : List (String × List String)) (u v : String) :
    has_edge (link_with w1 later adj) u v = true
      ↔ has_edge adj u v = true ∨ ((u = w1 ∧ v ∈ later) ∨ (v = w1 ∧ u ∈ later)) := by
  unfold link_with
  rw [foldl_iff (fun adj => has_edge adj u v = true)
    (fun w2 => (u = w1 ∧ v = w2) ∨ (u = w2 ∧ v = w1))]
  · constructor
    · rintro (h | ⟨w2, hw, (⟨h1, h2⟩ | ⟨h1, h2⟩)⟩)
      · exact Or.inl h
      · exact Or.inr (Or.inl ⟨h1, h2 ▸ hw⟩)
      · exact Or.inr (Or.inr ⟨h2, h1 ▸ hw⟩)
    · rintro (h | ⟨h1, h2⟩ | ⟨h1, h2⟩)
      · exact Or.inl h
      · exact Or.inr ⟨v, h2, Or.inl ⟨h1, rfl⟩⟩
      · exact Or.inr ⟨u, h2, Or.inr ⟨rfl, h1⟩⟩
  · intro b a
    simp only [has_edge_adj_emplace]
    tauto

theorem has_edge_link_bucket (ws : List String) (adj : List (String × List String))
    (u v : String) :
    has_edge (link_bucket ws adj) u v = true ↔ has_edge adj u v = true ∨ bucket_pair ws u v := by
  induction ws generalizing adj with
  | nil => simp [link_bucket, bucket_pair]
  | cons w1 later ih =>
    simp only [link_bucket, bucket_pair, ih, has_edge_link_with]
    tauto

theorem bucket_pair_mem (ws : List String) (u v : String) (h : bucket_pair ws u v) :
    u ∈ ws ∧ v ∈ ws := by
  induction ws with
  | nil => exact absurd h (by simp [bucket_pair])
  | cons w1 later ih =>
    simp only [bucket_pair] at h
    rcases h with ⟨h1, h2⟩ | ⟨h1, h2⟩ | h
    · exact ⟨by simp [h1], List.mem_cons_of_mem _ h2⟩
    · exact ⟨List.mem_cons_of_mem _ h2, by simp [h1]⟩
    · exact ⟨List.mem_cons_of_mem _ (ih h).1, List.mem_cons_of_mem _ (ih h).2⟩

theorem bucket_pair_of_ne (ws : List String) (u v : String) (hu : u ∈ ws) (hv : v ∈ ws)
    (hne : u ≠ v) : bucket_pair ws u v := by
  induction ws with
  | nil => simp at hu
  | cons w1 later ih =>
    simp only [bucket_pair]
    rcases List.mem_cons.1 hu with hu1 | hu2
    · rcases List.mem_cons.1 hv with hv1 | hv2
      · exact absurd (hu1.trans hv1.symm) hne
      · exact Or.inl ⟨hu1, hv2⟩
    · rcases List.mem_cons.1 hv with hv1 | hv2
      · exact Or.inr (Or.inl ⟨hv1, hu2⟩)
      · exact Or.inr (Or.inr (ih hu2 hv2))

/-! ### Keys and neighbour lists stay inside the filtered lexicon -/

theorem adj_inv_adj_emplace (L : List String) (adj : List (String × List String))
    (a b : String) (ha : a ∈ L) (hb : b ∈ L) (h : adj_inv L adj) :
    adj_inv L (adj_emplace adj a b) := by
  obtain ⟨hk, hv⟩ := h
  refine ⟨?_, ?_⟩
  · intro k hc
    unfold adj_emplace at hc
    rw [map_contains_update] at hc
    by_cases e : a = k
    · exact e ▸ ha
    · simp [e] at hc
      exact hk k hc
  · unfold adj_emplace
    apply map_update_all (fun _ ns => ns.Nodup ∧ ∀ v ∈ ns, v ∈ L) adj a _ hv
    cases hf : map_find adj a with
    | none =>
      simp [set_insert, hb]
    | some ns =>
      have := hv (a, ns) (map_find_mem adj a ns hf)
      simp only [Option.getD_some]
      refine ⟨set_insert_nodup ns b this.1, ?_⟩
      intro v hv2
      rcases (set_insert_mem ns b v).1 hv2 with h1 | h1
      · exact this.2 v h1
      · exact h1 ▸ hb

theorem adj_inv_link_with (L : List String) (w1 : String) (later : List String)
    (adj : List (String × List String)) (hw : w1 ∈ L) (hl : ∀ w ∈ later, w ∈ L)
    (h : adj_inv L adj) : adj_inv L (link_with w1 later adj) := by
  unfold link_with
  apply foldl_preserves (adj_inv L) _ later _ adj h
  intro b a ha hb
  exact adj_inv_adj_emplace L _ a w1 (hl a ha) hw
    (adj_inv_adj_emplace L b w1 a hw (hl a ha) hb)

theorem adj_inv_link_bucket (L : List String) (ws : List String)
    (adj : List (String × List String)) (hl : ∀ w ∈ ws, w ∈ L)
    (h : adj_inv L adj) : adj_inv L (link_bucket ws adj) := by
  induction ws generalizing adj with
  | nil => simpa [link_bucket] using h
  | cons w1 later ih =>
    simp only [link_bucket]
    apply ih _ (fun w hw => hl w (List.mem_cons_of_mem _ hw))
    exact adj_inv_link_with L w1 later adj (hl w1 (List.mem_cons_self _ _))
      (fun w hw => hl w (List.mem_cons_of_mem _ hw)) h

theorem map_contains_adj_emplace (adj : List (String × List String)) (a b k : String)
    (h : map_contains adj k = true) : map_contains (adj_emplace adj a b) k = true := by
  unfold adj_emplace
  rw [map_contains_update, h]
  simp

theorem map_contains_link_with (w1 : String) (later : List String)
    (adj : List (String × List String)) (k : String) (h : map_contains adj k = true) :
    map_contains (link_with w1 later adj) k = true := by
  unfold link_with
  apply foldl_preserves (fun adj => map_contains adj k = true) _ later _ adj h
  intro b a _ hb
  exact map_contains_adj_emplace _ a w1 k (map_contains_adj_emplace b w1 a k hb)

theorem map_contains_link_bucket (ws : List String)
    (adj : List (String × List String)) (k : String) (h : map_contains adj k = true) :
    map_contains (link_bucket ws adj) k = true := by
  induction ws generalizing adj with
  | nil => simpa [link_bucket] using h
  | cons w1 later ih =>
    simp only [link_bucket]
    exact ih _ (map_contains_link_with w1 later adj k h)

end word_ladder


/-! ## The wildcard buckets and the graph of `graph.new` -/

namespace word_ladder

theorem fill_combo_dict_values (L0 : List String) (L : List String) (hL : ∀ w ∈ L, w ∈ L0) :
    ∀ kv ∈ fill_combo_dict L, ∀ w ∈ kv.2, w ∈ L0 := by
  unfold fill_combo_dict
  apply foldl_preserves (fun dict : List (String × List String) =>
    ∀ kv ∈ dict, ∀ w ∈ kv.2, w ∈ L0) _ L
  · intro dict word hword hdict
    apply foldl_preserves (fun dict : List (String × List String) =>
      ∀ kv ∈ dict, ∀ w ∈ kv.2, w ∈ L0) _ (List.range word.length) _ dict hdict
    intro d i _ hd
    apply map_update_all (fun _ ws => ∀ w ∈ ws, w ∈ L0) d _ _ hd
    intro w hw
    rcases List.mem_append.1 hw with h1 | h1
    · cases hf : map_find d (wildcard word i) with
      | none => simp [hf] at h1
      | some ws =>
        simp only [hf, Option.getD_some] at h1
        exact hd (wildcard word i, ws) (map_find_mem d _ ws hf) w h1
    · simp at h1
      exact h1 ▸ hL word hword
  · intro kv hkv
    simp at hkv

theorem push_keeps_bucket (d : List (String × List String)) (key word : String)
    (w : String) (i : Nat)
    (h : ∃ ws, map_find d (wildcard w i) = some ws ∧ w ∈ ws) :
    ∃ ws, map_find (map_update d key (fun o => o.getD [] ++ [word])) (wildcard w i) = some ws
      ∧ w ∈ ws := by
  obtain ⟨ws, h1, h2⟩ := h
  rw [map_find_update]
  by_cases e : key = wildcard w i
  · subst e
    simp [h1, h2]
  · simp [e, h1, h2]

theorem fill_combo_dict_bucket (L : List String) (w : String) (hw : w ∈ L) (i : Nat)
    (hi : i < w.length) :
    ∃ ws, map_find (fill_combo_dict L) (wildcard w i) = some ws ∧ w ∈ ws := by
  have key := foldl_reach
    (fun (w : String) (dict : List (String × List String)) =>
      ∀ i, i < w.length → ∃ ws, map_find dict (wildcard w i) = some ws ∧ w ∈ ws)
    (fun dict word =>
      (List.range word.length).foldl
        (fun dict i => map_update dict (wildcard word i) (fun o => o.getD [] ++ [word]))
        dict)
    L ?_ ?_ [] w hw i hi
  · exact key
  · intro x b a hx
    apply foldl_preserves (fun (dict : List (String × List String)) =>
      ∀ i, i < x.length → ∃ ws, map_find dict (wildcard x i) = some ws ∧ x ∈ ws) _
      (List.range a.length) _ b hx
    intro d j _ hd i hi
    exact push_keeps_bucket d _ a x i (hd i hi)
  · intro b a _ i hi
    apply foldl_reach
      (fun (i : Nat) (dict : List (String × List String)) =>
        ∃ ws, map_find dict (wildcard a i) = some ws ∧ a ∈ ws)
      (fun dict i => map_update dict (wildcard a i) (fun o => o.getD [] ++ [a]))
      (List.range a.length) _ _ b i (List.mem_range.2 hi)
    · intro x d j hx
      exact push_keeps_bucket d _ a a x hx
    · intro d j _
      rw [map_find_update]
      simp

/-- The adjacency map before the buckets are linked (lines 121-123). -/
theorem has_edge_emplace_empty (adj : List (String × List String)) (word u v : String) :
    has_edge (map_update adj word (fun o => o.getD [])) u v = has_edge adj u v := by
  unfold has_edge
  rw [map_find_update]
  by_cases e : word = u
  · subst e
    cases hf : map_find adj word <;> simp
  · simp [e]

theorem graph_new_from (from_ : String) (lexicon : List String) :
    (graph.new from_ lexicon).from_ = from_ := rfl

theorem graph_new_ladders (from_ : String) (lexicon : List String) :
    (graph.new from_ lexicon).ladders_ = [] := rfl

theorem graph_new_lexicon (from_ : String) (lexicon : List String) :
    (graph.new from_ lexicon).lexicon_ = lexicon_filter from_ lexicon := rfl

theorem graph_new_adj (from_ : String) (lexicon : List String) :
    (graph.new from_ lexicon).adjacency_list_
      = (fill_combo_dict (lexicon_filter from_ lexicon)).foldl
          (fun adj transformations => link_bucket transformations.2 adj)
          ((lexicon_filter from_ lexicon).foldl
            (fun adj word => map_update adj word (fun o => o.getD [])) []) := rfl

/-- Edges of the constructed graph: the pairs that share a bucket at different positions. -/
theorem has_edge_graph_new (from_ : String) (lexicon : List String) (u v : String) :
    has_edge (graph.new from_ lexicon).adjacency_list_ u v = true
      ↔ ∃ kv ∈ fill_combo_dict (lexicon_filter from_ lexicon), bucket_pair kv.2 u v := by
  rw [graph_new_adj]
  rw [foldl_iff (fun adj => has_edge adj u v = true) (fun kv => bucket_pair kv.2 u v)]
  · have h0 : ∀ (L : List String) (adj : List (String × List String)),
        has_edge (L.foldl (fun adj word => map_update adj word (fun o => o.getD [])) adj) u v
          = has_edge adj u v := by
      intro L
      induction L with
      | nil => intro adj; rfl
      | cons x rest ih =>
        intro adj
        simp only [List.foldl_cons, ih, has_edge_emplace_empty]
    rw [h0]
    simp [has_edge, map_find]
  · intro b a
    exact has_edge_link_bucket a.2 b u v

theorem adj_inv_graph_new (from_ : String) (lexicon : List String) :
    adj_inv (lexicon_filter from_ lexicon) (graph.new from_ lexicon).adjacency_list_ := by
  rw [graph_new_adj]
  have hd := fill_combo_dict_values (lexicon_filter from_ lexicon)
    (lexicon_filter from_ lexicon) (fun _ h => h)
  have h1 : ∀ (L : List String), (∀ w ∈ L, w ∈ lexicon_filter from_ lexicon) →
      adj_inv (lexicon_filter from_ lexicon)
        (L.foldl (fun adj word => map_update adj word (fun o => o.getD [])) []) := by
    intro L hL
    apply foldl_preserves (adj_inv (lexicon_filter from_ lexicon)) _ L
    · intro b a ha hb
      obtain ⟨hk, hv⟩ := hb
      refine ⟨?_, ?_⟩
      · intro k hc
        rw [map_contains_update] at hc
        by_cases e : a = k
        · exact e ▸ hL a ha
        · simp [e] at hc
          exact hk k hc
      · apply map_update_all (fun _ ns => ns.Nodup ∧ ∀ v ∈ ns, v ∈ lexicon_filter from_ lexicon)
          b a _ hv
        cases hf : map_find b a with
        | none => simp
        | some ns => exact hv (a, ns) (map_find_mem b a ns hf)
    · exact ⟨by simp [map_contains, map_find], by simp⟩
  apply foldl_preserves (adj_inv (lexicon_filter from_ lexicon)) _ _ _ _
    (h1 _ (fun _ h => h))
  intro b a ha hb
  exact adj_inv_link_bucket _ a.2 b (hd a ha) hb

theorem map_contains_graph_new (from_ : String) (lexicon : List String) (w : String) :
    map_contains (graph.new from_ lexicon).adjacency_list_ w = true
      ↔ w ∈ lexicon_filter from_ lexicon := by
  constructor
  · exact (adj_inv_graph_new from_ lexicon).1 w
  · intro hw
    rw [graph_new_adj]
    apply foldl_preserves (fun adj => map_contains adj w = true) _ _ _ _
    · apply foldl_reach (fun (w : String) (adj : List (String × List String)) =>
        map_contains adj w = true) _ (lexicon_filter from_ lexicon) _ _ [] w hw
      · intro x b a hx
        rw [map_contains_update, hx]
        simp
      · intro b a _
        rw [map_contains_update]
        simp
    · intro b a _ hb
      exact map_contains_link_bucket a.2 b w hb

theorem graph_new_neighbours (from_ : String) (lexicon : List String) (u : String)
    (ns : List String) (h : map_find (graph.new from_ lexicon).adjacency_list_ u = some ns) :
    ns.Nodup ∧ ∀ v ∈ ns, v ∈ lexicon_filter from_ lexicon :=
  (adj_inv_graph_new from_ lexicon).2 (u, ns) (map_find_mem _ u ns h)

theorem graph_new_edge_mem (from_ : String) (lexicon : List String) (u v : String)
    (h : has_edge (graph.new from_ lexicon).adjacency_list_ u v = true) :
    v ∈ lexicon_filter from_ lexicon := by
  obtain ⟨ns, h1, h2⟩ := (has_edge_iff _ u v).1 h
  exact (graph_new_neighbours from_ lexicon u ns h1).2 v h2

theorem graph_new_closed (from_ : String) (lexicon : List String) (u v : String)
    (h : has_edge (graph.new from_ lexicon).adjacency_list_ u v = true) :
    map_contains (graph.new from_ lexicon).adjacency_list_ v = true :=
  (map_contains_graph_new from_ lexicon v).2 (graph_new_edge_mem from_ lexicon u v h)

/-- Two distinct words of the filtered lexicon with a common wildcard key are joined. -/
theorem graph_new_edge_of_wildcard (from_ : String) (lexicon : List String) (u v : String)
    (hu : u ∈ lexicon_filter from_ lexicon) (hv : v ∈ lexicon_filter from_ lexicon)
    (hne : u ≠ v) (i : Nat) (hiu : i < u.length) (hiv : i < v.length)
    (hw : wildcard u i = wildcard v i) :
    has_edge (graph.new from_ lexicon).adjacency_list_ u v = true := by
  rw [has_edge_graph_new]
  obtain ⟨ws, h1, h2⟩ := fill_combo_dict_bucket _ u hu i hiu
  obtain ⟨ws2, h3, h4⟩ := fill_combo_dict_bucket _ v hv i hiv
  rw [← hw, h1] at h3
  cases h3
  exact ⟨(wildcard u i, ws), map_find_mem _ _ _ h1, bucket_pair_of_ne ws u v h2 h4 hne⟩

theorem mismatch_count_wildcard (a b : List Char) (hl : a.length = b.length)
    (h : mismatch_count a b = 1) :
    a ≠ b ∧ ∃ i, i < a.length ∧
      a.take i ++ '*' :: a.drop (i + 1) = b.take i ++ '*' :: b.drop (i + 1) := by
  induction a generalizing b with
  | nil => cases b <;> simp [mismatch_count] at h
  | cons c cs ih =>
    cases b with
    | nil => simp at hl
    | cons d ds =>
      simp only [List.length_cons, Nat.add_right_cancel_iff] at hl
      simp only [mismatch_count] at h
      by_cases e : c = d
      · subst e
        simp only [if_true, Nat.zero_add] at h
        obtain ⟨h1, i, hi, h2⟩ := ih ds hl h
        refine ⟨by simpa using h1, i + 1, by simpa using hi, ?_⟩
        simp [h2]
      · simp only [e, if_false] at h
        have h0 : mismatch_count cs ds = 0 := by omega
        have heq : ∀ (x y : List Char), x.length = y.length → mismatch_count x y = 0 → x = y := by
          intro x
          induction x with
          | nil => intro y hy _; cases y <;> simp_all
          | cons p ps ihp =>
            intro y hy hm
            cases y with
            | nil => simp at hy
            | cons q qs =>
              simp only [List.length_cons, Nat.add_right_cancel_iff] at hy
              simp only [mismatch_count] at hm
              by_cases e2 : p = q
              · subst e2
                simp only [if_true, Nat.zero_add] at hm
                rw [ihp qs hy hm]
              · simp [e2] at hm
        refine ⟨by simp [e], 0, by simp, ?_⟩
        simp [heq cs ds hl h0]

theorem differ_wildcard (a b : String) (h : differ_in_one_position a b) :
    a ≠ b ∧ ∃ i, i < a.length ∧ i < b.length ∧ wildcard a i = wildcard b i := by
  obtain ⟨hl, hm⟩ := h
  have hl2 : a.data.length = b.data.length := hl
  obtain ⟨h1, i, hi, h2⟩ := mismatch_count_wildcard a.data b.data hl2 hm
  refine ⟨?_, i, hi, ?_, ?_⟩
  · intro e
    exact h1 (by rw [e])
  · have : i < a.data.length := hi
    show i < b.data.length
    omega
  · unfold wildcard
    rw [h2]

end word_ladder


/-! ## Breadth-first search: the loop invariant -/

namespace word_ladder

theorem map_contains_iff {β : Type} (m : List (String × β)) (k : String) :
    map_contains m k = true ↔ ∃ v, map_find m k = some v := by
  unfold map_contains
  cases map_find m k <;> simp

theorem map_contains_false_iff {β : Type} (m : List (String × β)) (k : String) :
    map_contains m k = false ↔ map_find m k = none := by
  unfold map_contains
  cases map_find m k <;> simp

theorem bfs_inv_init (adj : List (String × List String)) (s : String)
    (hs : map_contains adj s = true) : bfs_inv adj s [s] [(s, 0)] := by
  have hf : ∀ w dw, map_find [(s, (0 : Nat))] w = some dw → w = s ∧ dw = 0 := by
    intro w dw h
    by_cases e : s = w
    · simp [map_find, e] at h
      exact ⟨e.symm, h.symm⟩
    · simp [map_find, e] at h
  refine ⟨by simp [map_find], ?_, ?_, ?_, ?_, ?_, ?_⟩
  · intro w hw
    obtain ⟨v, hv⟩ := (map_contains_iff _ w).1 hw
    rw [(hf w v hv).1]
    exact hs
  · intro x hx
    simp only [List.mem_singleton] at hx
    subst hx
    refine ⟨0, by simp [map_find], ?_⟩
    intro w dw h
    have := (hf w dw h).2
    omega
  · simp
  · intro u du h hu
    exact absurd (by simp [(hf u du h).1]) hu
  · intro w dw h
    obtain ⟨h1, h2⟩ := hf w dw h
    subst h1 h2
    exact reach.refl
  · intro w dw h
    have := (hf w dw h).2
    simp [this]

/-- Recording the depth of a newly discovered neighbour keeps the invariant. -/
theorem bfs_inv_add (adj : List (String × List String)) (s x z : String)
    (q : List String) (dep : List (String × Nat)) (dx : Nat)
    (hcl : ∀ u v, has_edge adj u v = true → map_contains adj v = true)
    (inv : bfs_inv adj s (x :: q) dep) (hx : map_find dep x = some dx)
    (he : has_edge adj x z = true) (hz : map_find dep z = none) :
    bfs_inv adj s (x :: (q ++ [z])) (map_update dep z (fun _ => dx + 1)) := by
  have hfind : ∀ w, map_find (map_update dep z (fun _ => dx + 1)) w
      = if z = w then some (dx + 1) else map_find dep w := fun w => map_find_update dep z _ w
  have hne : ∀ w dw, map_find dep w = some dw → ¬ z = w := by
    intro w dw h e
    rw [← e, hz] at h
    cases h
  have hold : ∀ w dw, map_find dep w = some dw →
      map_find (map_update dep z (fun _ => dx + 1)) w = some dw := by
    intro w dw h
    rw [hfind, if_neg (hne w dw h), h]
  have hxall : ∀ w dw, map_find dep w = some dw → dw ≤ dx + 1 := by
    obtain ⟨dx2, h1, h2⟩ := inv.queued x (List.mem_cons_self _ _)
    rw [hx] at h1
    cases h1
    exact h2
  have hhead : ∀ y ∈ x :: q, ∀ dy, map_find dep y = some dy → dx ≤ dy := by
    intro y hy dy hdy
    rcases List.mem_cons.1 hy with rfl | hy
    · rw [hx] at hdy
      cases hdy
      exact Nat.le_refl _
    · exact (List.pairwise_cons.1 inv.sorted).1 y hy dx dy hx hdy
  refine ⟨hold s 0 inv.start, ?_, ?_, ?_, ?_, ?_, ?_⟩
  · intro w hw
    obtain ⟨v, hv⟩ := (map_contains_iff _ w).1 hw
    rw [hfind] at hv
    by_cases e : z = w
    · rw [← e]
      exact hcl x z he
    · rw [if_neg e] at hv
      exact inv.keys w ((map_contains_iff _ w).2 ⟨v, hv⟩)
  · intro y hy
    have hy2 : y ∈ x :: q ∨ y = z := by
      simp only [List.mem_cons, List.mem_append, List.mem_singleton] at hy ⊢
      tauto
    rcases hy2 with hy2 | rfl
    · obtain ⟨dy, h1, h2⟩ := inv.queued y hy2
      refine ⟨dy, hold y dy h1, ?_⟩
      intro w dw hw
      rw [hfind] at hw
      by_cases e : z = w
      · rw [if_pos e] at hw
        cases hw
        have := hhead y hy2 dy h1
        omega
      · rw [if_neg e] at hw
        exact h2 w dw hw
    · refine ⟨dx + 1, by rw [hfind]; simp, ?_⟩
      intro w dw hw
      rw [hfind] at hw
      by_cases e : y = w
      · rw [if_pos e] at hw
        cases hw
        omega
      · rw [if_neg e] at hw
        have := hxall w dw hw
        omega
  · have happ : x :: (q ++ [z]) = (x :: q) ++ [z] := rfl
    rw [happ, List.pairwise_append]
    refine ⟨?_, List.pairwise_singleton _ _, ?_⟩
    · refine List.Pairwise.imp_of_mem ?_ inv.sorted
      intro a b ha hb hab da db hda hdb
      obtain ⟨da2, h1, _⟩ := inv.queued a ha
      obtain ⟨db2, h3, _⟩ := inv.queued b hb
      rw [hold a da2 h1] at hda
      rw [hold b db2 h3] at hdb
      cases hda
      cases hdb
      exact hab da db h1 h3
    · intro a ha b hb da db hda hdb
      simp only [List.mem_singleton] at hb
      subst hb
      obtain ⟨da2, h1, _⟩ := inv.queued a ha
      rw [hold a da2 h1] at hda
      cases hda
      rw [hfind] at hdb
      simp at hdb
      subst hdb
      exact hxall a da h1
  · intro u du hu hnot v hv
    rw [hfind] at hu
    have hnz : ¬ z = u := by
      intro e
      apply hnot
      simp [e]
    rw [if_neg hnz] at hu
    have hnot2 : u ∉ x :: q := by
      intro h
      apply hnot
      simp only [List.mem_cons, List.mem_append, List.mem_singleton] at h ⊢
      tauto
    obtain ⟨dv, h1, h2⟩ := inv.finished u du hu hnot2 v hv
    exact ⟨dv, hold v dv h1, h2⟩
  · intro w dw hw
    rw [hfind] at hw
    by_cases e : z = w
    · rw [if_pos e] at hw
      cases hw
      rw [← e]
      exact reach.step (inv.sound x dx hx) he
    · rw [if_neg e] at hw
      exact inv.sound w dw hw
  · intro w dw hw
    have hlen : (map_update dep z (fun _ => dx + 1)).length = dep.length + 1 := by
      rw [map_update_length]
      have : map_contains dep z = false := (map_contains_false_iff dep z).2 hz
      simp [this]
    rw [hlen]
    rw [hfind] at hw
    by_cases e : z = w
    · rw [if_pos e] at hw
      cases hw
      have := inv.small x dx hx
      omega
    · rw [if_neg e] at hw
      have := inv.small w dw hw
      omega

/-- Once every neighbour of the front word has a depth, the word leaves the queue. -/
theorem bfs_inv_pop (adj : List (String × List String)) (s x : String)
    (q : List String) (dep : List (String × Nat))
    (inv : bfs_inv adj s (x :: q) dep)
    (hall : ∀ v, has_edge adj x v = true → map_contains dep v = true) :
    bfs_inv adj s q dep := by
  refine ⟨inv.start, inv.keys, ?_, ?_, ?_, inv.sound, inv.small⟩
  · intro y hy
    exact inv.queued y (List.mem_cons_of_mem _ hy)
  · exact (List.pairwise_cons.1 inv.sorted).2
  · intro u du hu hnot v hv
    by_cases e : u = x
    · subst e
      obtain ⟨dx, h1, h2⟩ := inv.queued u (List.mem_cons_self _ _)
      rw [hu] at h1
      cases h1
      obtain ⟨dv, hdv⟩ := (map_contains_iff dep v).1 (hall v hv)
      exact ⟨dv, hdv, h2 v dv hdv⟩
    · have hnot2 : u ∉ x :: q := by
        intro h
        rcases List.mem_cons.1 h with h | h
        · exact e h
        · exact hnot h
      exact inv.finished u du hu hnot2 v hv

end word_ladder


/-! ## Breadth-first search: the loops -/

namespace word_ladder

theorem countP_drop (z : String) (p p2 : String → Bool)
    (himp : ∀ w, p2 w = true → p w = true) (hp : p z = true) (hp2 : p2 z = false) :
    ∀ U : List String, z ∈ U → U.countP p2 + 1 ≤ U.countP p := by
  intro U
  induction U with
  | nil => intro h; simp at h
  | cons a U ih =>
    intro h
    simp only [List.countP_cons]
    rcases List.mem_cons.1 h with rfl | h
    · have := List.countP_mono_left (l := U) (fun w _ => himp w)
      simp only [hp, hp2]
      simp
      omega
    · have := ih h
      have h2 : (if p2 a = true then 1 else 0) ≤ (if p a = true then 1 else 0) := by
        by_cases e : p2 a = true
        · simp [e, himp a e]
        · simp [e]
      omega

theorem unseen_update (adj : List (String × List String)) (dep : List (String × Nat))
    (x z : String) (v : Nat) (he : has_edge adj x z = true) (hz : map_find dep z = none) :
    unseen adj (map_update dep z (fun _ => v)) + 1 ≤ unseen adj dep := by
  unfold unseen
  apply countP_drop z
  · intro w hw
    simp only [Bool.not_eq_true', map_contains_false_iff] at hw ⊢
    rw [map_find_update] at hw
    by_cases e : z = w
    · simp [e] at hw
    · simpa [e] using hw
  · simpa [map_contains_false_iff] using hz
  · simp only [Bool.not_eq_false', map_contains_iff]
    rw [map_find_update]
    simp
  · obtain ⟨ns, h1, h2⟩ := (has_edge_iff adj x z).1 he
    rw [List.mem_flatten]
    exact ⟨ns, List.mem_map.2 ⟨(x, ns), map_find_mem adj x ns h1, rfl⟩, h2⟩

theorem bfs_scan_spec (adj : List (String × List String)) (s to_ x : String)
    (hcl : ∀ u v, has_edge adj u v = true → map_contains adj v = true) :
    ∀ (ws q : List String) (dep : List (String × Nat)),
      (∀ w ∈ ws, has_edge adj x w = true) → bfs_inv adj s (x :: q) dep →
      (map_contains dep to_ = true → to_ = s) →
      ∃ b q1 dep1, bfs_scan to_ x ws q dep = (b, q1, dep1) ∧
        bfs_inv adj s (x :: q1) dep1 ∧
        (∀ w, map_contains dep w = true → map_contains dep1 w = true) ∧
        (b = true → map_contains dep1 to_ = true ∧ to_ ≠ s) ∧
        (b = false → (∀ w ∈ ws, map_contains dep1 w = true) ∧
          (map_contains dep1 to_ = true → to_ = s)) ∧
        q1.length + unseen adj dep1 ≤ q.length + unseen adj dep := by
  intro ws
  induction ws with
  | nil =>
    intro q dep _ inv hfree
    exact ⟨false, q, dep, rfl, inv, fun _ h => h, by simp, fun _ => ⟨by simp, hfree⟩,
      Nat.le_refl _⟩
  | cons word rest ih =>
    intro q dep hws inv hfree
    have hrest : ∀ w ∈ rest, has_edge adj x w = true :=
      fun w hw => hws w (List.mem_cons_of_mem _ hw)
    by_cases hc : map_contains dep word = true
    · obtain ⟨b, q1, dep1, h1, h2, h3, h4, h5, h6⟩ := ih q dep hrest inv hfree
      refine ⟨b, q1, dep1, ?_, h2, h3, h4, ?_, h6⟩
      · rw [bfs_scan, if_pos hc, h1]
      · intro hb
        refine ⟨?_, (h5 hb).2⟩
        intro w hw
        rcases List.mem_cons.1 hw with rfl | hw
        · exact h3 _ hc
        · exact (h5 hb).1 w hw
    · obtain ⟨dx, hx, _⟩ := inv.queued x (List.mem_cons_self _ _)
      have hz : map_find dep word = none := by
        simpa [map_contains_false_iff] using hc
      have hidx : map_index dep x = (dx, dep) := by simp [map_index, hx]
      have inv2 := bfs_inv_add adj s x word q dep dx hcl inv hx
        (hws word (List.mem_cons_self _ _)) hz
      have hmono : ∀ w, map_contains dep w = true →
          map_contains (map_update dep word (fun _ => dx + 1)) w = true := by
        intro w hw
        rw [map_contains_update, hw]
        simp
      have hnew : map_contains (map_update dep word (fun _ => dx + 1)) word = true := by
        rw [map_contains_update]
        simp
      have hmeasure := unseen_update adj dep x word (dx + 1)
        (hws word (List.mem_cons_self _ _)) hz
      by_cases ht : word = to_
      · refine ⟨true, q ++ [word], map_update dep word (fun _ => dx + 1), ?_, inv2, hmono,
          fun _ => ⟨ht ▸ hnew, ?_⟩, by simp, ?_⟩
        · rw [bfs_scan, if_neg hc]
          simp only [hidx, if_pos ht]
        · intro e
          have h0 := inv.start
          rw [← e, ← ht, hz] at h0
          cases h0
        · simp only [List.length_append, List.length_singleton]
          omega
      · have hfree2 : map_contains (map_update dep word (fun _ => dx + 1)) to_ = true →
            to_ = s := by
          intro h
          rw [map_contains_update] at h
          simp only [Bool.or_eq_true, decide_eq_true_eq] at h
          rcases h with h | h
          · exact absurd h ht
          · exact hfree h
        obtain ⟨b, q1, dep1, h1, h2, h3, h4, h5, h6⟩ :=
          ih (q ++ [word]) (map_update dep word (fun _ => dx + 1)) hrest inv2 hfree2
        refine ⟨b, q1, dep1, ?_, h2, fun w hw => h3 w (hmono w hw), h4, ?_, ?_⟩
        · rw [bfs_scan, if_neg hc]
          simp only [hidx, if_neg ht]
          exact h1
        · intro hb
          refine ⟨?_, (h5 hb).2⟩
          intro w hw
          rcases List.mem_cons.1 hw with rfl | hw
          · exact h3 _ hnew
          · exact (h5 hb).1 w hw
        · simp only [List.length_append, List.length_singleton] at h6
          omega

theorem read_after_pop_short (word : String) (h : word.length ≤ 15) :
    read_after_pop word = some word := by
  simp [read_after_pop, h]

theorem read_after_pop_long (word : String) (h : 16 ≤ word.length) :
    read_after_pop word = none := by
  have : ¬ word.length ≤ 15 := by omega
  simp [read_after_pop, this]

theorem bfs_loop_spec (adj : List (String × List String)) (s to_ : String)
    (hcl : ∀ u v, has_edge adj u v = true → map_contains adj v = true)
    (hshort : ∀ w, map_contains adj w = true → w.length ≤ 15) :
    ∀ (fuel : Nat) (q : List String) (dep : List (String × Nat)),
      bfs_inv adj s q dep → (map_contains dep to_ = true → to_ = s) →
      q.length + unseen adj dep ≤ fuel →
      ∃ b dep1 q1, bfs_loop adj to_ fuel q dep = .ok (b, dep1) ∧
        bfs_inv adj s q1 dep1 ∧
        (b = true → map_contains dep1 to_ = true ∧ to_ ≠ s) ∧
        (b = false → q1 = [] ∧ (map_contains dep1 to_ = true → to_ = s)) := by
  intro fuel
  induction fuel with
  | zero =>
    intro q dep inv hfree hm
    cases q with
    | nil => exact ⟨false, dep, [], by simp [bfs_loop], inv, by simp, fun _ => ⟨rfl, hfree⟩⟩
    | cons x q => simp at hm
  | succ fuel ih =>
    intro q dep inv hfree hm
    cases q with
    | nil => exact ⟨false, dep, [], by simp [bfs_loop], inv, by simp, fun _ => ⟨rfl, hfree⟩⟩
    | cons x q =>
      obtain ⟨dx, hx, _⟩ := inv.queued x (List.mem_cons_self _ _)
      have hkey := inv.keys x ((map_contains_iff dep x).2 ⟨dx, hx⟩)
      have hread := read_after_pop_short x (hshort x hkey)
      obtain ⟨ns, hns⟩ := (map_contains_iff adj x).1 hkey
      have hws : ∀ w ∈ ns, has_edge adj x w = true :=
        fun w hw => (has_edge_iff adj x w).2 ⟨ns, hns, hw⟩
      obtain ⟨b, q1, dep1, h1, h2, h3, h4, h5, h6⟩ :=
        bfs_scan_spec adj s to_ x hcl ns q dep hws inv hfree
      cases b with
      | true =>
        refine ⟨true, dep1, x :: q1, ?_, h2, h4, by simp⟩
        simp [bfs_loop, hread, map_at, hns, h1]
      | false =>
        have hall : ∀ v, has_edge adj x v = true → map_contains dep1 v = true := by
          intro v hv
          obtain ⟨ns2, hn2, hv2⟩ := (has_edge_iff adj x v).1 hv
          rw [hns] at hn2
          cases hn2
          exact (h5 rfl).1 v hv2
        have inv3 := bfs_inv_pop adj s x q1 dep1 h2 hall
        have hm2 : q1.length + unseen adj dep1 ≤ fuel := by
          simp only [List.length_cons] at hm
          omega
        obtain ⟨b2, dep2, q2, k1, k2, k3, k4⟩ := ih q1 dep1 inv3 (h5 rfl).2 hm2
        refine ⟨b2, dep2, q2, ?_, k2, k3, k4⟩
        simp [bfs_loop, hread, map_at, hns, h1, k1]

/-- The search of `bfs_find_depth` returns, and the depth map it leaves satisfies the
invariant for some remaining queue. -/
theorem bfs_find_depth_spec (g : graph) (to_ : String)
    (hcl : ∀ u v, has_edge g.adjacency_list_ u v = true →
      map_contains g.adjacency_list_ v = true)
    (hshort : ∀ w, map_contains g.adjacency_list_ w = true → w.length ≤ 15)
    (hs : map_contains g.adjacency_list_ g.from_ = true) :
    ∃ b dep1 q1, bfs_find_depth g to_ [(g.from_, 0)] = .ok (b, dep1) ∧
      bfs_inv g.adjacency_list_ g.from_ q1 dep1 ∧
      (b = true → map_contains dep1 to_ = true ∧ to_ ≠ g.from_) ∧
      (b = false → q1 = [] ∧ (map_contains dep1 to_ = true → to_ = g.from_)) := by
  unfold bfs_find_depth
  apply bfs_loop_spec g.adjacency_list_ g.from_ to_ hcl hshort
  · exact bfs_inv_init _ _ hs
  · intro h
    obtain ⟨v, hv⟩ := (map_contains_iff _ to_).1 h
    by_cases e : g.from_ = to_
    · exact e.symm
    · simp [map_find, e] at hv
  · unfold bfs_fuel unseen
    have := List.countP_le_length (fun w => !map_contains [(g.from_, 0)] w)
      (l := (g.adjacency_list_.map (fun kv => kv.2)).flatten)
    rw [List.length_flatten, List.map_map] at this
    simp only [List.length_singleton]
    have e : (List.length ∘ fun kv : String × List String => kv.2)
        = (fun kv : String × List String => kv.2.length) := rfl
    rw [e] at this
    omega

end word_ladder


/-! ## Walks, paths and the depth map -/

namespace word_ladder

theorem reach_cons (adj : List (String × List String)) (u v w : String) (k : Nat)
    (he : has_edge adj u v = true) (hr : reach adj v w k) : reach adj u w (k + 1) := by
  induction hr with
  | refl => exact reach.step reach.refl he
  | step _ h2 ih => exact reach.step ih h2

theorem reach_of_chain (adj : List (String × List String)) (t : String) :
    ∀ (rest : List String) (u : String),
      List.Chain (fun a b => has_edge adj a b = true) u rest →
      (u :: rest).getLast? = some t → reach adj u t rest.length := by
  intro rest
  induction rest with
  | nil =>
    intro u _ hl
    simp at hl
    subst hl
    exact reach.refl
  | cons v rest ih =>
    intro u hc hl
    rw [List.chain_cons] at hc
    rw [List.getLast?_cons_cons] at hl
    exact reach_cons adj u v t rest.length hc.1 (ih v hc.2 hl)

theorem chain_snoc (adj : List (String × List String)) (v : String) :
    ∀ (rest : List String) (s u : String),
      List.Chain (fun a b => has_edge adj a b = true) s rest →
      (s :: rest).getLast? = some u → has_edge adj u v = true →
      List.Chain (fun a b => has_edge adj a b = true) s (rest ++ [v]) := by
  intro rest
  induction rest with
  | nil =>
    intro s u _ hl he
    simp at hl
    subst hl
    simp [he]
  | cons w rest ih =>
    intro s u hc hl he
    rw [List.chain_cons] at hc
    rw [List.getLast?_cons_cons] at hl
    rw [List.cons_append, List.chain_cons]
    exact ⟨hc.1, ih w u hc.2 hl he⟩

theorem chain_of_reach (adj : List (String × List String)) (s t : String) (n : Nat)
    (hr : reach adj s t n) :
    ∃ rest, List.Chain (fun a b => has_edge adj a b = true) s rest ∧
      (s :: rest).getLast? = some t ∧ rest.length = n := by
  induction hr with
  | refl => exact ⟨[], List.Chain.nil, by simp, rfl⟩
  | step _ he ih =>
    obtain ⟨rest, h1, h2, h3⟩ := ih
    refine ⟨rest ++ [_], chain_snoc adj _ rest s _ h1 h2 he, ?_, by simp [h3]⟩
    rw [← List.cons_append, List.getLast?_append]
    simp

theorem is_path_iff (adj : List (String × List String)) (s t : String) (p : List String) :
    is_path adj s t p ↔ ∃ rest, p = s :: rest ∧
      List.Chain (fun a b => has_edge adj a b = true) s rest ∧
      (s :: rest).getLast? = some t := by
  unfold is_path
  constructor
  · rintro ⟨h1, h2, h3⟩
    cases p with
    | nil => simp at h1
    | cons a rest =>
      simp at h1
      subst h1
      exact ⟨rest, rfl, h3, h2⟩
  · rintro ⟨rest, rfl, h1, h2⟩
    exact ⟨by simp, h2, h1⟩

theorem is_path_reach (adj : List (String × List String)) (s t : String) (p : List String)
    (h : is_path adj s t p) : ∃ k, p.length = k + 1 ∧ reach adj s t k := by
  obtain ⟨rest, rfl, h1, h2⟩ := (is_path_iff adj s t p).1 h
  exact ⟨rest.length, by simp, reach_of_chain adj t rest s h1 h2⟩

theorem reach_is_path (adj : List (String × List String)) (s t : String) (n : Nat)
    (hr : reach adj s t n) : ∃ p, is_path adj s t p ∧ p.length = n + 1 := by
  obtain ⟨rest, h1, h2, h3⟩ := chain_of_reach adj s t n hr
  exact ⟨s :: rest, (is_path_iff adj s t _).2 ⟨rest, rfl, h1, h2⟩, by simp [h3]⟩

/-- A walk of `k` edges that leaves a word with a depth ends at most `k` levels deeper,
unless no word at all lies deeper than that. -/
theorem bfs_inv_reach (adj : List (String × List String)) (s : String) (q : List String)
    (dep : List (String × Nat)) (inv : bfs_inv adj s q dep) (u : String) (du : Nat)
    (hu : map_find dep u = some du) (w : String) (k : Nat) (hr : reach adj u w k) :
    (∃ dw, map_find dep w = some dw ∧ dw ≤ du + k) ∨
      (∀ w2 d2, map_find dep w2 = some d2 → d2 ≤ du + k) := by
  induction hr with
  | refl => exact Or.inl ⟨du, hu, by omega⟩
  | @step a b n _ he ih =>
    rcases ih with ⟨da, h1, h2⟩ | h
    · by_cases hq : a ∈ q
      · obtain ⟨da2, h3, h4⟩ := inv.queued a hq
        rw [h1] at h3
        cases h3
        right
        intro w2 d2 hw2
        have := h4 w2 d2 hw2
        omega
      · obtain ⟨db, h3, h4⟩ := inv.finished a da h1 hq b he
        exact Or.inl ⟨db, h3, by omega⟩
    · right
      intro w2 d2 hw2
      have := h w2 d2 hw2
      omega

theorem bfs_inv_le (adj : List (String × List String)) (s : String) (q : List String)
    (dep : List (String × Nat)) (inv : bfs_inv adj s q dep) (u : String) (du : Nat)
    (hu : map_find dep u = some du) (w : String) (dw : Nat)
    (hw : map_find dep w = some dw) (k : Nat) (hr : reach adj u w k) : dw ≤ du + k := by
  rcases bfs_inv_reach adj s q dep inv u du hu w k hr with ⟨dw2, h1, h2⟩ | h
  · rw [hw] at h1
    cases h1
    exact h2
  · exact h w dw hw

/-- When the queue has run empty every word reachable from the start has a depth. -/
theorem bfs_inv_complete (adj : List (String × List String)) (s : String)
    (dep : List (String × Nat)) (inv : bfs_inv adj s [] dep) (w : String) (k : Nat)
    (hr : reach adj s w k) : map_contains dep w = true := by
  induction hr with
  | refl => exact (map_contains_iff dep s).2 ⟨0, inv.start⟩
  | @step a b n _ he ih =>
    obtain ⟨da, hda⟩ := (map_contains_iff dep a).1 ih
    obtain ⟨db, h3, _⟩ := inv.finished a da hda (by simp) b he
    exact (map_contains_iff dep b).2 ⟨db, h3⟩

/-- Every list that the enumeration follows is a path, one level per step. -/
theorem dag_path_sound (adj : List (String × List String)) (to_ : String)
    (dep : List (String × Nat)) (d : Nat) (hd : map_find dep to_ = some d) :
    ∀ (l : List String) (u : String), l.head? = some u → dag_path adj to_ dep l →
      is_path adj u to_ l ∧ ∀ du, map_find dep u = some du → du + l.length = d + 1 := by
  intro l
  induction l with
  | nil => intro u h; simp at h
  | cons a rest ih =>
    intro u hh hdag
    simp at hh
    subst hh
    cases rest with
    | nil =>
      simp only [dag_path] at hdag
      obtain ⟨h1, _⟩ := hdag
      subst h1
      refine ⟨⟨rfl, by simp, by simp⟩, ?_⟩
      intro du hdu
      rw [hd] at hdu
      cases hdu
      simp
    | cons w rest2 =>
      simp only [dag_path] at hdag
      obtain ⟨_, he, ⟨du, h3, h4⟩, h5⟩ := hdag
      obtain ⟨k1, k2⟩ := ih w (by simp) h5
      refine ⟨⟨rfl, ?_, ?_⟩, ?_⟩
      · rw [List.getLast?_cons_cons]
        exact k1.2.1
      · exact List.Chain'.cons he k1.2.2
      · intro du2 hdu2
        have e : du = du2 := Option.some.inj (h3.symm.trans hdu2)
        have := k2 (du + 1) h4
        simp only [List.length_cons] at this ⊢
        omega

/-- A walk that gains exactly one level per step up to the target is followed by the
enumeration. -/
theorem dag_path_complete (adj : List (String × List String)) (s to_ : String)
    (q : List String) (dep : List (String × Nat)) (inv : bfs_inv adj s q dep) (d : Nat)
    (hd : map_find dep to_ = some d) :
    ∀ (rest : List String) (u : String) (du : Nat), map_find dep u = some du →
      List.Chain (fun a b => has_edge adj a b = true) u rest →
      (u :: rest).getLast? = some to_ → du + rest.length = d →
      dag_path adj to_ dep (u :: rest) := by
  intro rest
  induction rest with
  | nil =>
    intro u du hu _ hl _
    simp at hl
    subst hl
    show u = u ∧ map_contains dep u = true
    exact ⟨rfl, (map_contains_iff dep u).2 ⟨du, hu⟩⟩
  | cons v rest ih =>
    intro u du hu hc hl hlen
    rw [List.chain_cons] at hc
    rw [List.getLast?_cons_cons] at hl
    simp only [List.length_cons] at hlen
    have hne : u ≠ to_ := by
      intro e
      rw [e, hd] at hu
      cases hu
      omega
    have hrv : reach adj v to_ rest.length := reach_of_chain adj to_ rest v hc.2 hl
    have hv : map_find dep v = some (du + 1) := by
      rcases bfs_inv_reach adj s q dep inv u du hu v 1
          (reach.step reach.refl hc.1) with ⟨dv, h1, h2⟩ | h
      · have := bfs_inv_le adj s q dep inv v dv h1 to_ d hd rest.length hrv
        have e : dv = du + 1 := by omega
        rw [← e]
        exact h1
      · have h3 := h to_ d hd
        have h4 : rest.length = 0 := by omega
        have h5 : rest = [] := List.length_eq_zero.1 h4
        subst h5
        simp at hl
        subst hl
        have e : d = du + 1 := by simp at hlen; omega
        rw [← e]
        exact hd
    simp only [dag_path]
    exact ⟨hne, hc.1, ⟨du, hu, hv⟩, ih v (du + 1) hv hc.2 hl (by omega)⟩

end word_ladder


/-! ## Depth-first enumeration -/

namespace word_ladder

theorem dag_path_head_contains (adj : List (String × List String)) (to_ : String)
    (depth : List (String × Nat)) (u : String) (rest : List String)
    (h : dag_path adj to_ depth (u :: rest)) : map_contains depth u = true := by
  cases rest with
  | nil => exact h.2
  | cons w rest2 =>
    obtain ⟨_, _, ⟨du, h3, _⟩, _⟩ := h
    exact (map_contains_iff depth u).2 ⟨du, h3⟩

theorem dfs_each_spec (adj : List (String × List String)) (to_ : String)
    (depth : List (String × Nat))
    (call : String → List String × List (List String) →
      Except Error (List String × List (List String)))
    (u : String) (du : Nat) (hu : map_find depth u = some du) :
    ∀ (ws : List String), ws.Nodup →
      (∀ w ∈ ws, map_find depth w = some (du + 1) → ∀ cur lad, ∃ new : List (List String),
        call w (cur, lad) = .ok (cur, lad ++ new.map (fun l => cur ++ l)) ∧ new.Nodup ∧
        ∀ l, l ∈ new ↔ (l.head? = some w ∧ dag_path adj to_ depth l)) →
      ∀ cur lad, ∃ new : List (List String),
        dfs_each call depth u ws (cur, lad)
          = .ok (cur, lad ++ new.map (fun l => cur ++ l)) ∧ new.Nodup ∧
        ∀ l, l ∈ new ↔ ∃ w ∈ ws, map_find depth w = some (du + 1) ∧
          l.head? = some w ∧ dag_path adj to_ depth l := by
  intro ws
  induction ws with
  | nil =>
    intro _ _ cur lad
    exact ⟨[], by simp [dfs_each], List.nodup_nil, by simp⟩
  | cons word rest ih =>
    intro hnd hcall cur lad
    have hnd2 := List.nodup_cons.1 hnd
    have ih2 := ih hnd2.2 (fun w hw => hcall w (List.mem_cons_of_mem _ hw))
    have hskip : map_find depth word ≠ some (du + 1) →
        ∀ new : List (List String), (∀ l, l ∈ new ↔ ∃ w ∈ rest, map_find depth w = some (du + 1) ∧
          l.head? = some w ∧ dag_path adj to_ depth l) →
        ∀ l, l ∈ new ↔ ∃ w ∈ word :: rest, map_find depth w = some (du + 1) ∧
          l.head? = some w ∧ dag_path adj to_ depth l := by
      intro hne new hnew l
      rw [hnew l]
      constructor
      · rintro ⟨w, hw, h⟩
        exact ⟨w, List.mem_cons_of_mem _ hw, h⟩
      · rintro ⟨w, hw, h⟩
        rcases List.mem_cons.1 hw with rfl | hw
        · exact absurd h.1 hne
        · exact ⟨w, hw, h⟩
    by_cases hc : map_contains depth word = true
    · obtain ⟨dw, hdw⟩ := (map_contains_iff depth word).1 hc
      by_cases hd : du + 1 = dw
      · subst hd
        obtain ⟨new1, c1, c2, c3⟩ := hcall word (List.mem_cons_self _ _) hdw cur lad
        obtain ⟨new2, r1, r2, r3⟩ := ih2 cur (lad ++ new1.map (fun l => cur ++ l))
        refine ⟨new1 ++ new2, ?_, ?_, ?_⟩
        · rw [dfs_each, if_pos hc]
          simp only [map_at, hu, hdw, if_true, c1, r1, List.map_append, List.append_assoc]
        · refine List.Nodup.append c2 r2 ?_
          intro l h1 h2
          obtain ⟨w, hw, _, hh, _⟩ := (r3 l).1 h2
          have hh1 := ((c3 l).1 h1).1
          rw [hh1] at hh
          cases hh
          exact hnd2.1 hw
        · intro l
          rw [List.mem_append, c3 l, r3 l]
          constructor
          · rintro (⟨h1, h2⟩ | ⟨w, hw, h⟩)
            · exact ⟨word, List.mem_cons_self _ _, hdw, h1, h2⟩
            · exact ⟨w, List.mem_cons_of_mem _ hw, h⟩
          · rintro ⟨w, hw, h⟩
            rcases List.mem_cons.1 hw with rfl | hw
            · exact Or.inl ⟨h.2.1, h.2.2⟩
            · exact Or.inr ⟨w, hw, h⟩
      · obtain ⟨new2, r1, r2, r3⟩ := ih2 cur lad
        refine ⟨new2, ?_, r2, hskip ?_ new2 r3⟩
        · rw [dfs_each, if_pos hc]
          simp only [map_at, hu, hdw, if_neg hd, r1]
        · rw [hdw]
          intro e
          exact hd (Option.some.inj e).symm
    · obtain ⟨new2, r1, r2, r3⟩ := ih2 cur lad
      refine ⟨new2, ?_, r2, hskip ?_ new2 r3⟩
      · rw [dfs_each, if_neg hc, r1]
      · intro e
        exact hc ((map_contains_iff depth word).2 ⟨_, e⟩)

theorem dfs_find_path_spec (adj : List (String × List String)) (to_ : String)
    (depth : List (String × Nat))
    (hkeys : ∀ w, map_contains depth w = true → map_contains adj w = true)
    (hnodup : ∀ u ns, map_find adj u = some ns → ns.Nodup)
    (B : Nat) (hB : ∀ w dw, map_find depth w = some dw → dw < B) :
    ∀ (fuel : Nat) (u : String) (current : List String) (ladders : List (List String)),
      (∀ du, map_find depth u = some du → B ≤ du + fuel) → 1 ≤ fuel →
      ∃ new : List (List String), dfs_find_path adj to_ depth fuel u (current, ladders)
          = .ok (current, ladders ++ new.map (fun l => current ++ l)) ∧ new.Nodup ∧
        ∀ l, l ∈ new ↔ (l.head? = some u ∧ dag_path adj to_ depth l) := by
  intro fuel
  induction fuel with
  | zero => intro _ _ _ _ h; omega
  | succ fuel ih =>
    intro u current ladders hfuel _
    by_cases hc : map_contains depth u = true
    · obtain ⟨du, hdu⟩ := (map_contains_iff depth u).1 hc
      by_cases ht : u = to_
      · refine ⟨[[u]], ?_, by simp, ?_⟩
        · have hc2 : map_contains depth to_ = true := ht ▸ hc
          rw [dfs_find_path]
          simp [hc2, ht]
        · intro l
          constructor
          · intro hl
            simp only [List.mem_singleton] at hl
            subst hl
            exact ⟨rfl, ht, hc⟩
          · rintro ⟨h1, h2⟩
            cases l with
            | nil => simp at h1
            | cons a rest =>
              simp at h1
              subst h1
              cases rest with
              | nil => simp
              | cons w rest2 => exact absurd ht h2.1
      · obtain ⟨ns, hns⟩ := (map_contains_iff adj u).1 (hkeys u hc)
        have hcall : ∀ w ∈ ns, map_find depth w = some (du + 1) → ∀ cur lad, ∃ new : List (List String),
            dfs_find_path adj to_ depth fuel w (cur, lad)
              = .ok (cur, lad ++ new.map (fun l => cur ++ l)) ∧ new.Nodup ∧
            ∀ l, l ∈ new ↔ (l.head? = some w ∧ dag_path adj to_ depth l) := by
          intro w _ hw cur lad
          have h1 := hfuel du hdu
          have h2 := hB w (du + 1) hw
          apply ih w cur lad
          · intro dw hdw
            rw [hw] at hdw
            cases hdw
            omega
          · omega
        obtain ⟨new, e1, e2, e3⟩ := dfs_each_spec adj to_ depth
          (dfs_find_path adj to_ depth fuel) u du hdu ns (hnodup u ns hns) hcall
          (current ++ [u]) ladders
        refine ⟨new.map (fun l => u :: l), ?_, ?_, ?_⟩
        · have hm : List.map (fun l => current ++ [u] ++ l) new
              = List.map (fun l => current ++ l) (new.map (fun l => u :: l)) := by
            rw [List.map_map]
            apply List.map_congr_left
            intro l _
            simp
          rw [hm] at e1
          rw [dfs_find_path]
          simp only [hc, not_true_eq_false, if_false, ne_eq, ht, not_false_eq_true, if_true,
            map_at, hns, e1, List.dropLast_concat]
        · exact List.Nodup.map (fun a b h => List.tail_eq_of_cons_eq h) e2
        · intro l
          rw [List.mem_map]
          constructor
          · rintro ⟨l2, hl2, rfl⟩
            obtain ⟨w, hw, hdw, hh, hdag⟩ := (e3 l2).1 hl2
            cases l2 with
            | nil => simp at hh
            | cons a rest =>
              simp at hh
              subst hh
              exact ⟨rfl, ht, (has_edge_iff adj u a).2 ⟨ns, hns, hw⟩, ⟨du, hdu, hdw⟩, hdag⟩
          · rintro ⟨h1, h2⟩
            cases l with
            | nil => simp at h1
            | cons a rest =>
              simp at h1
              subst h1
              cases rest with
              | nil => exact absurd h2.1 ht
              | cons w rest2 =>
                obtain ⟨_, he, ⟨du2, h3, h4⟩, h5⟩ := h2
                have e : du2 = du := Option.some.inj (h3.symm.trans hdu)
                rw [e] at h4
                obtain ⟨ns2, hn2, hw2⟩ := (has_edge_iff adj a w).1 he
                have e2 : ns2 = ns := Option.some.inj (hn2.symm.trans hns)
                rw [e2] at hw2
                exact ⟨w :: rest2, (e3 _).2 ⟨w, hw2, h4, rfl, h5⟩, rfl⟩
    · refine ⟨[], ?_, List.nodup_nil, ?_⟩
      · rw [dfs_find_path]
        simp [hc]
      · intro l
        constructor
        · intro h
          simp at h
        · rintro ⟨h1, h2⟩
          cases l with
          | nil => simp at h1
          | cons a rest =>
            simp at h1
            subst h1
            exact absurd (dag_path_head_contains adj to_ depth a rest h2) hc

end word_ladder


/-! ## Lexicographic comparison and sorting -/

namespace word_ladder

theorem sort_ladders_perm (l : List (List String)) : (sort_ladders l).Perm l :=
  List.perm_insertionSort _ l

theorem mem_sort_ladders (l : List (List String)) (x : List String) :
    x ∈ sort_ladders l ↔ x ∈ l :=
  (sort_ladders_perm l).mem_iff

end word_ladder


/-! ## The result of `path_search` and `generate` -/

namespace word_ladder

/-- What one call of `path_search` returns on a graph whose neighbour lists are closed
under the key set and free of repetitions: either nothing (the search fails), or the
sorted list of the ladders kept from before followed by all shortest paths. -/
theorem path_search_spec (g : graph) (to_ : String)
    (hcl : ∀ u v, has_edge g.adjacency_list_ u v = true →
      map_contains g.adjacency_list_ v = true)
    (hshort : ∀ w, map_contains g.adjacency_list_ w = true → w.length ≤ 15)
    (hs : map_contains g.adjacency_list_ g.from_ = true)
    (hnodup : ∀ u ns, map_find g.adjacency_list_ u = some ns → ns.Nodup) :
    (path_search g to_ = .ok ([], { g with ladders_ := [] }) ∧
      (to_ = g.from_ ∨ ∀ p, ¬ is_path g.adjacency_list_ g.from_ to_ p))
    ∨ (∃ (d : Nat) (new : List (List String)), to_ ≠ g.from_ ∧ new.Nodup ∧ new ≠ [] ∧
        path_search g to_ = .ok (sort_ladders (g.ladders_ ++ new),
          { g with ladders_ := sort_ladders (g.ladders_ ++ new) }) ∧
        (∀ l, l ∈ new ↔ (is_path g.adjacency_list_ g.from_ to_ l ∧ l.length = d + 1)) ∧
        (∀ p, is_path g.adjacency_list_ g.from_ to_ p → d + 1 ≤ p.length)) := by
  obtain ⟨b, dep1, q1, hbfs, inv, htrue, hfalse⟩ := bfs_find_depth_spec g to_ hcl hshort hs
  cases b with
  | false =>
    left
    obtain ⟨hq, hfree⟩ := hfalse rfl
    subst hq
    refine ⟨by simp [path_search, hbfs], ?_⟩
    by_cases e : to_ = g.from_
    · exact Or.inl e
    · right
      intro p hp
      obtain ⟨k, _, hr⟩ := is_path_reach _ _ _ p hp
      exact e (hfree (bfs_inv_complete _ _ dep1 inv to_ k hr))
  | true =>
    right
    obtain ⟨hin, hne⟩ := htrue rfl
    obtain ⟨d, hd⟩ := (map_contains_iff dep1 to_).1 hin
    obtain ⟨new, hdfs, hnd, hmem⟩ := dfs_find_path_spec g.adjacency_list_ to_ dep1
      inv.keys hnodup dep1.length inv.small (dfs_fuel dep1) g.from_ [] g.ladders_
      (by intro du _; unfold dfs_fuel; omega) (by unfold dfs_fuel; omega)
    have hmap : List.map (fun l : List String => [] ++ l) new = new := by simp
    rw [hmap] at hdfs
    have hchar : ∀ l, l ∈ new ↔
        (is_path g.adjacency_list_ g.from_ to_ l ∧ l.length = d + 1) := by
      intro l
      rw [hmem l]
      constructor
      · rintro ⟨h1, h2⟩
        obtain ⟨k1, k2⟩ := dag_path_sound g.adjacency_list_ to_ dep1 d hd l g.from_ h1 h2
        have := k2 0 inv.start
        exact ⟨k1, by omega⟩
      · rintro ⟨h1, h2⟩
        obtain ⟨rest, rfl, h3, h4⟩ := (is_path_iff _ _ _ l).1 h1
        refine ⟨rfl, ?_⟩
        apply dag_path_complete g.adjacency_list_ g.from_ to_ q1 dep1 inv d hd rest
          g.from_ 0 inv.start h3 h4
        simp only [List.length_cons] at h2
        omega
    refine ⟨d, new, hne, hnd, ?_, by simp [path_search, hbfs, hdfs], hchar, ?_⟩
    · obtain ⟨p, hp, hlen⟩ := reach_is_path _ _ _ d (inv.sound to_ d hd)
      intro e
      have := (hchar p).2 ⟨hp, hlen⟩
      rw [e] at this
      simp at this
    · intro p hp
      obtain ⟨k, hk, hr⟩ := is_path_reach _ _ _ p hp
      have := bfs_inv_le _ _ q1 dep1 inv g.from_ 0 inv.start to_ d hd k hr
      omega

theorem graph_new_short (from_ : String) (lexicon : List String)
    (hlen : from_.length ≤ 15) (w : String)
    (hw : map_contains (graph.new from_ lexicon).adjacency_list_ w = true) :
    w.length ≤ 15 := by
  have := ((mem_lexicon_filter from_ lexicon w).1
    ((map_contains_graph_new from_ lexicon w).1 hw)).2
  omega

/-- The result of `generate` when the start word is in the lexicon and has at most 15
characters: the empty list when the target is the start word or cannot be reached, and
otherwise the sorted list of all shortest paths, each of them once. -/
theorem generate_spec (from_ to_ : String) (lexicon : List String) (h : from_ ∈ lexicon)
    (hlen : from_.length ≤ 15) :
    (generate from_ to_ lexicon = .ok [] ∧
      (to_ = from_ ∨ ∀ p, ¬ is_path (graph.new from_ lexicon).adjacency_list_ from_ to_ p))
    ∨ (∃ (d : Nat) (new : List (List String)), to_ ≠ from_ ∧ new.Nodup ∧ new ≠ [] ∧
        generate from_ to_ lexicon = .ok (sort_ladders new) ∧
        (∀ l, l ∈ new ↔
          (is_path (graph.new from_ lexicon).adjacency_list_ from_ to_ l ∧
            l.length = d + 1)) ∧
        (∀ p, is_path (graph.new from_ lexicon).adjacency_list_ from_ to_ p →
          d + 1 ≤ p.length)) := by
  have hs : map_contains (graph.new from_ lexicon).adjacency_list_
      (graph.new from_ lexicon).from_ = true := by
    rw [graph_new_from, map_contains_graph_new, mem_lexicon_filter]
    exact ⟨h, rfl⟩
  rcases path_search_spec (graph.new from_ lexicon) to_ (graph_new_closed from_ lexicon)
      (graph_new_short from_ lexicon hlen) hs
      (fun u ns hu => (graph_new_neighbours from_ lexicon u ns hu).1) with
    ⟨h1, h2⟩ | ⟨d, new, h1, h2, h3, h4, h5, h6⟩
  · left
    rw [graph_new_from] at h2
    exact ⟨by simp [generate, h1], h2⟩
  · right
    rw [graph_new_from] at h1 h5 h6
    rw [graph_new_ladders, List.nil_append] at h4
    exact ⟨d, new, h1, h2, h3, by simp [generate, h4], h5, h6⟩

/-- A start word of 16 or more characters is read back from its destroyed queue element
as no key, and the first lookup of the search throws. -/
theorem bfs_find_depth_long (g : graph) (to_ : String) (depth : List (String × Nat))
    (h : 16 ≤ g.from_.length) : bfs_find_depth g to_ depth = .error .out_of_range := by
  simp [bfs_find_depth, bfs_fuel, bfs_loop, read_after_pop_long g.from_ h]

theorem generate_long (from_ to_ : String) (lexicon : List String)
    (h : 16 ≤ from_.length) : generate from_ to_ lexicon = .error .out_of_range := by
  have hb := bfs_find_depth_long (graph.new from_ lexicon) to_
    [((graph.new from_ lexicon).from_, 0)] h
  simp [generate, path_search, hb]

theorem generate_ok (from_ to_ : String) (lexicon : List String) (h : from_ ∈ lexicon)
    (hlen : from_.length ≤ 15) : ∃ ladders, generate from_ to_ lexicon = .ok ladders := by
  rcases generate_spec from_ to_ lexicon h hlen with ⟨h1, _⟩ | ⟨d, new, _, _, _, h4, _, _⟩
  · exact ⟨[], h1⟩
  · exact ⟨sort_ladders new, h4⟩

theorem chain_words (adj : List (String × List String)) :
    ∀ (rest : List String) (s : String),
      List.Chain (fun a b => has_edge adj a b = true) s rest →
      ∀ w ∈ rest, ∃ u, has_edge adj u w = true := by
  intro rest
  induction rest with
  | nil => intro s _ w hw; simp at hw
  | cons v rest ih =>
    intro s h1 w hw
    rw [List.chain_cons] at h1
    rcases List.mem_cons.1 hw with e | hw2
    · exact ⟨s, e ▸ h1.1⟩
    · exact ih v h1.2 w hw2

/-- Every word of a path is the start word or the end of an edge. -/
theorem is_path_words (adj : List (String × List String)) (s t : String)
    (p : List String) (h : is_path adj s t p) :
    ∀ w ∈ p, w = s ∨ ∃ u, has_edge adj u w = true := by
  obtain ⟨rest, rfl, h1, _⟩ := (is_path_iff adj s t p).1 h
  intro w hw
  rcases List.mem_cons.1 hw with e | hw
  · exact Or.inl e
  · exact Or.inr (chain_words adj rest s h1 w hw)

theorem path_of_edge (adj : List (String × List String)) (s t : String)
    (h : has_edge adj s t = true) : is_path adj s t [s, t] :=
  ⟨rfl, rfl, by simp [h]⟩

theorem is_path_length_two (adj : List (String × List String)) (s t : String)
    (p : List String) (h : is_path adj s t p) (hlen : p.length = 2) : p = [s, t] := by
  obtain ⟨h1, h2, _⟩ := h
  match p, hlen with
  | [a, b], _ =>
    simp at h1 h2
    rw [h1, h2]

theorem is_path_length_one (adj : List (String × List String)) (s t : String)
    (p : List String) (h : is_path adj s t p) (hlen : p.length = 1) : t = s := by
  obtain ⟨h1, h2, _⟩ := h
  match p, hlen with
  | [a], _ =>
    simp at h1 h2
    rw [← h1, ← h2]

end word_ladder


/-! ## The properties of `generate` -/

namespace word_ladder

/-- For a start word of the lexicon with at most 15 characters and a different target,
every shortest path of the adjacency graph from start to target occurs in the list that
`generate` returns. -/
theorem generate_all_shortest_paths_short (from_ to_ : String) (lexicon : List String)
    (hne : to_ ≠ from_) (h : from_ ∈ lexicon) (hlen : from_.length ≤ 15) :
    ∃ ladders, generate from_ to_ lexicon = .ok ladders ∧
      ∀ p, is_path (graph.new from_ lexicon).adjacency_list_ from_ to_ p →
        (∀ p2, is_path (graph.new from_ lexicon).adjacency_list_ from_ to_ p2 →
          p.length ≤ p2.length) →
        p ∈ ladders := by
  rcases generate_spec from_ to_ lexicon h hlen with
    ⟨k1, k2⟩ | ⟨d, new, _, _, k3, k4, k5, k6⟩
  · refine ⟨[], k1, ?_⟩
    intro p hp _
    rcases k2 with e | k2
    · exact absurd e hne
    · exact absurd hp (k2 p)
  · refine ⟨sort_ladders new, k4, ?_⟩
    intro p hp hmin
    rw [mem_sort_ladders, k5 p]
    refine ⟨hp, ?_⟩
    obtain ⟨l, hl⟩ := List.exists_mem_of_ne_nil new k3
    obtain ⟨m1, m2⟩ := (k5 l).1 hl
    have := hmin l m1
    have := k6 p hp
    omega

/-- C3, evaluated at two words of sixteen characters that differ in their last but one
character: both are in the lexicon, the two-word list is a shortest path of the adjacency
graph from start to target, and `generate` ends with `out_of_range` and returns no list. -/
theorem generate_long_words_no_list :
    "institutionalise" ∈ ["institutionalise", "institutionalize"] ∧
    "institutionalize" ≠ "institutionalise" ∧
    is_path (graph.new "institutionalise"
        ["institutionalise", "institutionalize"]).adjacency_list_
      "institutionalise" "institutionalize" ["institutionalise", "institutionalize"] ∧
    (∀ p2, is_path (graph.new "institutionalise"
        ["institutionalise", "institutionalize"]).adjacency_list_
        "institutionalise" "institutionalize" p2 →
      ["institutionalise", "institutionalize"].length ≤ p2.length) ∧
    generate "institutionalise" "institutionalize"
      ["institutionalise", "institutionalize"] = .error .out_of_range := by
  refine ⟨by decide, by decide, path_of_edge _ _ _ (by decide), ?_, by rfl⟩
  intro p2 hp2
  obtain ⟨k, hk, _⟩ := is_path_reach _ _ _ p2 hp2
  by_cases e : k = 0
  · rw [e] at hk
    exact absurd (is_path_length_one _ _ _ p2 hp2 hk) (by decide)
  · simp only [List.length_cons, List.length_nil]
    omega

/-- C4, evaluated at a lexicon whose words contain the wildcard character: `generate`
returns a ladder whose two consecutive words have equal length and differ in two
character positions, which `is_one_char_diff` rejects. -/
theorem generate_wildcard_collision :
    "a*".length = "*b".length ∧ "a*" ∈ ["a*", "*b"] ∧ "*b" ∈ ["a*", "*b"] ∧
    generate "a*" "*b" ["a*", "*b"] = .ok [["a*", "*b"]] ∧
    mismatch_count "a*".data "*b".data = 2 ∧
    is_one_char_diff "a*" "*b" = false ∧
    wildcard "a*" 0 = wildcard "*b" 1 :=
  ⟨by decide, by decide, by decide, by rfl, by decide, by decide, by decide⟩

/-- For a start word of the lexicon with at most 15 characters and a different target,
`generate` returns a list, which is empty exactly when no path of the adjacency graph leads
from start to target, and in particular when the target is not in the lexicon. -/
theorem generate_empty_iff_unreachable_short (from_ to_ : String) (lexicon : List String)
    (hne : to_ ≠ from_) (h : from_ ∈ lexicon) (hlen : from_.length ≤ 15) :
    ∃ ladders, generate from_ to_ lexicon = .ok ladders ∧
      (ladders = [] ↔
        ¬ ∃ p, is_path (graph.new from_ lexicon).adjacency_list_ from_ to_ p) ∧
      (to_ ∉ lexicon → ladders = []) := by
  have hout : to_ ∉ lexicon →
      ¬ ∃ p, is_path (graph.new from_ lexicon).adjacency_list_ from_ to_ p := by
    rintro hto ⟨p, hp⟩
    rcases is_path_words _ _ _ p hp to_ (List.mem_of_getLast?_eq_some hp.2.1) with e | ⟨u, hu⟩
    · exact hne e
    · exact hto ((mem_lexicon_filter from_ lexicon to_).1
        (graph_new_edge_mem from_ lexicon u to_ hu)).1
  rcases generate_spec from_ to_ lexicon h hlen with
    ⟨k1, k2⟩ | ⟨d, new, _, _, k3, k4, k5, _⟩
  · refine ⟨[], k1, ?_, fun _ => rfl⟩
    rcases k2 with e | k2
    · exact absurd e hne
    · simp only [true_iff]
      rintro ⟨p, hp⟩
      exact k2 p hp
  · obtain ⟨l, hl⟩ := List.exists_mem_of_ne_nil new k3
    have hpath : ∃ p, is_path (graph.new from_ lexicon).adjacency_list_ from_ to_ p :=
      ⟨l, ((k5 l).1 hl).1⟩
    have hsort : sort_ladders new ≠ [] := by
      intro e
      have := (mem_sort_ladders new l).2 hl
      rw [e] at this
      simp at this
    refine ⟨sort_ladders new, k4, ?_, ?_⟩
    · constructor
      · intro e
        exact absurd e hsort
      · intro hno
        exact absurd hpath hno
    · intro hto
      exact absurd hpath (hout hto)

/-- C6, evaluated at a start word of sixteen characters: the start is in the lexicon, the
target differs from it and is not in the lexicon, and `generate` ends with `out_of_range`
where the empty list is due. -/
theorem generate_long_start_raises :
    "incomprehensibly" ≠ "incomprehensible" ∧
    "incomprehensible" ∈ ["incomprehensible", "hit"] ∧
    "incomprehensibly" ∉ ["incomprehensible", "hit"] ∧
    map_contains (graph.new "incomprehensible" ["incomprehensible", "hit"]).adjacency_list_
      "incomprehensible" = true ∧
    generate "incomprehensible" "incomprehensibly" ["incomprehensible", "hit"]
      = .error .out_of_range :=
  ⟨by decide, by decide, by decide, by decide, by rfl⟩

/-- For two words of the lexicon with at most 15 characters that have equal length and
differ in exactly one character position, `generate` returns the one-element list holding
the ladder of these two words. -/
theorem generate_adjacent_words_short (from_ to_ : String) (lexicon : List String)
    (h1 : from_ ∈ lexicon) (h2 : to_ ∈ lexicon) (hd : differ_in_one_position from_ to_)
    (hlen : from_.length ≤ 15) :
    generate from_ to_ lexicon = .ok [[from_, to_]] := by
  obtain ⟨hne, i, hi1, hi2, hw⟩ := differ_wildcard from_ to_ hd
  have hedge : has_edge (graph.new from_ lexicon).adjacency_list_ from_ to_ = true :=
    graph_new_edge_of_wildcard from_ lexicon from_ to_
      ((mem_lexicon_filter from_ lexicon from_).2 ⟨h1, rfl⟩)
      ((mem_lexicon_filter from_ lexicon to_).2 ⟨h2, hd.1.symm⟩) hne i hi1 hi2 hw
  have hpath := path_of_edge _ from_ to_ hedge
  rcases generate_spec from_ to_ lexicon h1 hlen with
    ⟨_, k2⟩ | ⟨d, new, _, k2, k3, k4, k5, k6⟩
  · rcases k2 with e | k2
    · exact absurd e.symm hne
    · exact absurd hpath (k2 _)
  · have hd1 : d = 1 := by
      have hle := k6 _ hpath
      simp only [List.length_cons, List.length_nil] at hle
      obtain ⟨l, hl⟩ := List.exists_mem_of_ne_nil new k3
      obtain ⟨m1, m2⟩ := (k5 l).1 hl
      by_cases e : d = 0
      · rw [e] at m2
        exact absurd (is_path_length_one _ _ _ l m1 m2).symm hne
      · omega
    subst hd1
    have hnew : new = [[from_, to_]] := by
      apply List.perm_singleton.1
      apply (List.perm_ext_iff_of_nodup k2 (List.nodup_singleton _)).2
      intro l
      rw [k5 l, List.mem_singleton]
      constructor
      · rintro ⟨m1, m2⟩
        exact is_path_length_two _ _ _ l m1 m2
      · intro e
        rw [e]
        exact ⟨hpath, rfl⟩
    rw [k4, hnew]
    rfl

/-- C8, evaluated at two words of sixteen characters: both are in the lexicon, they have
equal length and differ in exactly one character position, `add_edges` joins them, and
`generate` ends with `out_of_range` where the one-element list of their ladder is due. -/
theorem generate_adjacent_long_words :
    "characterisation" ∈ ["characterisation", "characterization"] ∧
    "characterization" ∈ ["characterisation", "characterization"] ∧
    differ_in_one_position "characterisation" "characterization" ∧
    has_edge (graph.new "characterisation"
        ["characterisation", "characterization"]).adjacency_list_
      "characterisation" "characterization" = true ∧
    generate "characterisation" "characterization"
      ["characterisation", "characterization"] = .error .out_of_range :=
  ⟨by decide, by decide, ⟨by decide, by decide⟩, by decide, by rfl⟩

/-- For a word of the lexicon with at most 15 characters used as both start and target,
`generate` returns the empty list. -/
theorem generate_same_word_short (w : String) (lexicon : List String) (h : w ∈ lexicon)
    (hlen : w.length ≤ 15) : generate w w lexicon = .ok [] := by
  rcases generate_spec w w lexicon h hlen with ⟨k1, _⟩ | ⟨d, new, k0, _⟩
  · exact k1
  · exact absurd rfl k0

/-- C9, evaluated at a word of sixteen characters used as both start and target: the word
is in the lexicon and `generate` ends with `out_of_range` where the empty list is due,
while a word of three characters gives the empty list. -/
theorem generate_same_long_word :
    "counterintuitive" ∈ ["counterintuitive", "hit"] ∧
    generate "counterintuitive" "counterintuitive" ["counterintuitive", "hit"]
      = .error .out_of_range ∧
    generate "hit" "hit" ["counterintuitive", "hit"] = .ok [] :=
  ⟨by decide, by rfl, by rfl⟩

/-- C10, evaluated on one graph object: the first call of `path_search` returns the single
ladder, a second call with the same target on the graph left by the first returns that ladder
twice, and a call with an unreachable target in between empties the stored list. -/
theorem path_search_keeps_ladders :
    (path_search (graph.new "at" ["at", "it"]) "it").map (fun r => r.1)
      = .ok [["at", "it"]] ∧
    ((path_search (graph.new "at" ["at", "it"]) "it").bind
        (fun r => path_search r.2 "it")).map (fun r => r.1)
      = .ok [["at", "it"], ["at", "it"]] ∧
    (((path_search (graph.new "at" ["at", "it"]) "it").bind
        (fun r => path_search r.2 "zz")).bind
        (fun r => path_search r.2 "it")).map (fun r => r.1)
      = .ok [["at", "it"]] :=
  ⟨by rfl, by rfl, by rfl⟩

end word_ladder


/-! ## Further facts about the constructed graph and the search -/

namespace word_ladder

theorem bucket_pair_symm (ws : List String) (u v : String) (h : bucket_pair ws u v) :
    bucket_pair ws v u := by
  induction ws with
  | nil => exact h
  | cons w1 later ih =>
    simp only [bucket_pair] at h ⊢
    rcases h with h | h | h
    · exact Or.inr (Or.inl h)
    · exact Or.inl h
    · exact Or.inr (Or.inr (ih h))

theorem graph_new_edge_symm (from_ : String) (lexicon : List String) (u v : String)
    (h : has_edge (graph.new from_ lexicon).adjacency_list_ u v = true) :
    has_edge (graph.new from_ lexicon).adjacency_list_ v u = true := by
  rw [has_edge_graph_new] at h ⊢
  obtain ⟨kv, h1, h2⟩ := h
  exact ⟨kv, h1, bucket_pair_symm kv.2 u v h2⟩

/-- A start word outside the lexicon is no key, and the first lookup of the search throws. -/
theorem generate_out_of_range (from_ to_ : String) (lexicon : List String)
    (h : from_ ∉ lexicon) : generate from_ to_ lexicon = .error .out_of_range := by
  have hkey : map_find (graph.new from_ lexicon).adjacency_list_ from_ = none := by
    rw [← map_contains_false_iff]
    cases hc : map_contains (graph.new from_ lexicon).adjacency_list_ from_ with
    | false => rfl
    | true =>
      exact absurd ((mem_lexicon_filter from_ lexicon from_).1
        ((map_contains_graph_new from_ lexicon from_).1 hc)).1 h
  by_cases hl : from_.length ≤ 15
  · simp [generate, path_search, bfs_find_depth, bfs_fuel, bfs_loop, map_at, graph_new_from,
      read_after_pop_short from_ hl, hkey]
  · exact generate_long from_ to_ lexicon (by omega)

end word_ladder


/-! ## The pairwise check `is_one_char_diff` -/

namespace word_ladder

theorem diff_loop_spec (a : List Char) :
    ∀ (b : List Char) (n : Nat), n ≤ 1 →
      diff_loop a b n
        = if n + mismatch_count a b ≤ 1 then some (n + mismatch_count a b) else none := by
  induction a with
  | nil =>
    intro b n hn
    simp [diff_loop, mismatch_count, hn]
  | cons c cs ih =>
    intro b n hn
    cases b with
    | nil => simp [diff_loop, mismatch_count, hn]
    | cons d ds =>
      by_cases e : c = d
      · subst e
        simp only [diff_loop, mismatch_count, ne_eq, not_true_eq_false, if_false, if_true,
          Nat.zero_add]
        exact ih ds n hn
      · simp only [diff_loop, mismatch_count, ne_eq, e, not_false_eq_true, if_true, if_false]
        by_cases h1 : n + 1 > 1
        · rw [if_pos h1, if_neg (by omega)]
        · rw [if_neg h1, ih ds (n + 1) (by omega)]
          have e2 : n + 1 + mismatch_count cs ds = n + (1 + mismatch_count cs ds) := by omega
          rw [e2]

theorem is_one_char_diff_iff (a b : String) :
    is_one_char_diff a b = true ↔ differ_in_one_position a b := by
  unfold is_one_char_diff differ_in_one_position
  by_cases hl : a.length = b.length
  · simp only [ne_eq, hl, not_true_eq_false, if_false, true_and]
    rw [diff_loop_spec a.data b.data 0 (by omega)]
    simp only [Nat.zero_add]
    by_cases h : mismatch_count a.data b.data ≤ 1
    · simp [h]
    · simp only [h, if_false]
      constructor
      · intro h2
        cases h2
      · intro h2
        omega
  · simp [hl]

theorem mismatch_count_self (a : List Char) : mismatch_count a a = 0 := by
  induction a with
  | nil => rfl
  | cons c cs ih => simp [mismatch_count, ih]

theorem mismatch_count_positions (a : List Char) :
    ∀ b : List Char, a.length = b.length →
      mismatch_count a b
        = ((List.range a.length).filter (fun i => decide (a[i]? ≠ b[i]?))).length := by
  induction a with
  | nil =>
    intro b _
    simp [mismatch_count]
  | cons c cs ih =>
    intro b hl
    cases b with
    | nil => simp at hl
    | cons d ds =>
      simp only [List.length_cons, Nat.add_right_cancel_iff] at hl
      simp only [mismatch_count, List.length_cons, List.range_succ_eq_map, List.filter_cons,
        List.filter_map, List.length_map]
      have hrest : List.filter ((fun i => decide ((c :: cs)[i]? ≠ (d :: ds)[i]?)) ∘ Nat.succ)
          (List.range cs.length)
          = List.filter (fun i => decide (cs[i]? ≠ ds[i]?)) (List.range cs.length) := by
        apply List.filter_congr
        intro i _
        simp
      rw [hrest, ih ds hl]
      by_cases e : c = d
      · simp [e]
      · simp [e]
        omega

theorem mismatch_positions_length (a b : String) (h : a.length = b.length) :
    (mismatch_positions a b).length = mismatch_count a.data b.data := by
  unfold mismatch_positions
  exact (mismatch_count_positions a.data b.data h).symm

end word_ladder


/-! ## Buckets of a lexicon without the wildcard character -/

namespace word_ladder

/-- Two wildcard keys of words without the wildcard character agree only at one common
position, and then the words agree everywhere else. -/
theorem wildcard_key_inj (a : List Char) :
    ∀ (b : List Char) (i j : Nat), i < a.length → j < b.length → '*' ∉ a → '*' ∉ b →
      a.take i ++ '*' :: a.drop (i + 1) = b.take j ++ '*' :: b.drop (j + 1) →
      i = j ∧ a.length = b.length ∧ (a ≠ b → mismatch_count a b = 1) := by
  induction a with
  | nil => intro b i j hi; simp at hi
  | cons c cs ih =>
    intro b i j hi hj ha hb h
    cases b with
    | nil => simp at hj
    | cons d ds =>
      simp only [List.mem_cons, not_or] at ha hb
      cases i with
      | zero =>
        cases j with
        | zero =>
          simp at h
          subst h
          refine ⟨rfl, rfl, ?_⟩
          intro hne
          have e : c ≠ d := by
            intro e
            exact hne (by rw [e])
          simp [mismatch_count, e, mismatch_count_self]
        | succ j =>
          simp at h
          exact absurd h.1 hb.1
      | succ i =>
        cases j with
        | zero =>
          simp at h
          exact absurd h.1.symm ha.1
        | succ j =>
          simp at h hi hj
          obtain ⟨h1, h2⟩ := h
          subst h1
          obtain ⟨k1, k2, k3⟩ := ih ds i j hi hj ha.2 hb.2 h2
          refine ⟨by omega, by simp [k2], ?_⟩
          intro hne
          have e : cs ≠ ds := by
            intro e
            exact hne (by rw [e])
          simp [mismatch_count, k3 e]

theorem wildcard_eq_data (u v : String) (i j : Nat) (h : wildcard u i = wildcard v j) :
    u.data.take i ++ '*' :: u.data.drop (i + 1) = v.data.take j ++ '*' :: v.data.drop (j + 1) := by
  unfold wildcard at h
  injection h

theorem bucket_pair_ne (ws : List String) (u v : String) (hnd : ws.Nodup)
    (h : bucket_pair ws u v) : u ≠ v := by
  induction ws with
  | nil => exact absurd h (by simp [bucket_pair])
  | cons w1 later ih =>
    obtain ⟨h1, h2⟩ := List.nodup_cons.1 hnd
    simp only [bucket_pair] at h
    rcases h with ⟨k1, k2⟩ | ⟨k1, k2⟩ | h
    · intro e
      rw [← e, k1] at k2
      exact h1 k2
    · intro e
      rw [e, k1] at k2
      exact h1 k2
    · exact ih h2 h

theorem bucket_inv_imp (Q Q2 : String → Nat → Prop) (dict : List (String × List String))
    (himp : ∀ x j, Q x j → Q2 x j) (h : bucket_inv Q dict) : bucket_inv Q2 dict := by
  intro kv hkv
  obtain ⟨h1, h2⟩ := h kv hkv
  refine ⟨h1, ?_⟩
  intro x hx
  obtain ⟨j, k1, k2⟩ := h2 x hx
  exact ⟨j, himp x j k1, k2⟩

/-- One `push_back` of line 118 keeps the buckets free of repetitions when the word was not
pushed under the same key before. -/
theorem bucket_inv_push (Q : String → Nat → Prop) (dict : List (String × List String))
    (w : String) (i : Nat) (h : bucket_inv Q dict)
    (hfresh : ∀ j, Q w j → wildcard w j ≠ wildcard w i) :
    bucket_inv (fun x j => Q x j ∨ (x = w ∧ j = i))
      (map_update dict (wildcard w i) (fun o => o.getD [] ++ [w])) := by
  unfold bucket_inv
  apply map_update_all (fun k ws => ws.Nodup ∧
    ∀ x ∈ ws, ∃ j, (Q x j ∨ (x = w ∧ j = i)) ∧ wildcard x j = k) dict
  · exact bucket_inv_imp Q _ dict (fun x j hq => Or.inl hq) h
  · have hold : (map_find dict (wildcard w i)).getD [] = [] ∨
        ∃ ws, (wildcard w i, ws) ∈ dict ∧ (map_find dict (wildcard w i)).getD [] = ws := by
      cases hf : map_find dict (wildcard w i) with
      | none => exact Or.inl rfl
      | some ws => exact Or.inr ⟨ws, map_find_mem dict _ ws hf, rfl⟩
    rcases hold with e | ⟨ws, hws, e⟩
    · rw [e]
      refine ⟨by simp, ?_⟩
      intro x hx
      simp only [List.nil_append, List.mem_singleton] at hx
      exact ⟨i, Or.inr ⟨hx, rfl⟩, by rw [hx]⟩
    · rw [e]
      obtain ⟨h1, h2⟩ := h (wildcard w i, ws) hws
      refine ⟨?_, ?_⟩
      · refine List.Nodup.append h1 (List.nodup_singleton w) ?_
        intro x hx1 hx2
        simp only [List.mem_singleton] at hx2
        subst hx2
        obtain ⟨j, k1, k2⟩ := h2 x hx1
        exact hfresh j k1 k2
      · intro x hx
        rcases List.mem_append.1 hx with hx | hx
        · obtain ⟨j, k1, k2⟩ := h2 x hx
          exact ⟨j, Or.inl k1, k2⟩
        · simp only [List.mem_singleton] at hx
          exact ⟨i, Or.inr ⟨hx, rfl⟩, by rw [hx]⟩

theorem wildcard_ne (w : String) (hw : '*' ∉ w.data) (i j : Nat) (hi : i < w.length)
    (hj : j < w.length) (hne : j ≠ i) : wildcard w j ≠ wildcard w i := by
  intro e
  exact hne (wildcard_key_inj w.data w.data j i hj hi hw hw (wildcard_eq_data w w j i e)).1

/-- The loop over the positions of one word (lines 117-119). -/
theorem bucket_inv_word (Q : String → Nat → Prop) (w : String) (hw : '*' ∉ w.data)
    (hfresh : ∀ j, ¬ Q w j) :
    ∀ (n : Nat), n ≤ w.length → ∀ dict, bucket_inv Q dict →
      bucket_inv (fun x j => Q x j ∨ (x = w ∧ j < n))
        ((List.range n).foldl
          (fun dict i => map_update dict (wildcard w i) (fun o => o.getD [] ++ [w])) dict) := by
  intro n
  induction n with
  | zero =>
    intro _ dict h
    exact bucket_inv_imp Q _ dict (fun x j hq => Or.inl hq) h
  | succ n ih =>
    intro hn dict h
    rw [List.range_succ, List.foldl_append]
    simp only [List.foldl_cons, List.foldl_nil]
    have h1 := ih (by omega) dict h
    have h2 := bucket_inv_push _ _ w n h1 (by
      intro j hq
      rcases hq with hq | ⟨_, hq⟩
      · exact absurd hq (hfresh j)
      · exact wildcard_ne w hw n j (by omega) (by omega) (by omega))
    refine bucket_inv_imp _ _ _ ?_ h2
    intro x j hq
    rcases hq with (hq | ⟨k1, k2⟩) | ⟨k1, k2⟩
    · exact Or.inl hq
    · exact Or.inr ⟨k1, by omega⟩
    · exact Or.inr ⟨k1, by omega⟩

/-- The first loop of `add_edges` over a lexicon without repetitions and without the
wildcard character. -/
theorem bucket_inv_fill (L : List String) :
    ∀ (Q : String → Nat → Prop) (dict : List (String × List String)),
      L.Nodup → (∀ w ∈ L, '*' ∉ w.data) → (∀ w ∈ L, ∀ j, ¬ Q w j) → bucket_inv Q dict →
      bucket_inv (fun x j => Q x j ∨ (x ∈ L ∧ j < x.length))
        (L.foldl
          (fun dict word =>
            (List.range word.length).foldl
              (fun dict i => map_update dict (wildcard word i) (fun o => o.getD [] ++ [word]))
              dict)
          dict) := by
  induction L with
  | nil =>
    intro Q dict _ _ _ h
    exact bucket_inv_imp Q _ dict (fun x j hq => Or.inl hq) h
  | cons w rest ih =>
    intro Q dict hnd hstar hfresh h
    obtain ⟨hw, hrest⟩ := List.nodup_cons.1 hnd
    simp only [List.foldl_cons]
    have h1 := bucket_inv_word Q w (hstar w (List.mem_cons_self _ _))
      (hfresh w (List.mem_cons_self _ _)) w.length (Nat.le_refl _) dict h
    have h2 := ih _ _ hrest (fun x hx => hstar x (List.mem_cons_of_mem _ hx)) (by
      intro x hx j hq
      rcases hq with hq | ⟨k1, _⟩
      · exact hfresh x (List.mem_cons_of_mem _ hx) j hq
      · exact hw (k1 ▸ hx)) h1
    refine bucket_inv_imp _ _ _ ?_ h2
    intro x j hq
    rcases hq with (hq | ⟨k1, k2⟩) | ⟨k1, k2⟩
    · exact Or.inl hq
    · exact Or.inr ⟨by simp [k1], by rw [k1]; exact k2⟩
    · exact Or.inr ⟨List.mem_cons_of_mem _ k1, k2⟩

theorem lexicon_filter_nodup (from_ : String) (lexicon : List String) :
    (lexicon_filter from_ lexicon).Nodup := by
  unfold lexicon_filter
  apply foldl_preserves (fun s : List String => s.Nodup) _ lexicon _ [] List.nodup_nil
  intro b a _ hb
  by_cases e : a.length = from_.length
  · simp only [e, if_true]
    exact set_insert_nodup b a hb
  · simpa only [e, if_false] using hb

/-- In a lexicon without the wildcard character every edge joins two distinct words of the
filtered lexicon that differ in exactly one character position. -/
theorem graph_new_edge_sound (from_ : String) (lexicon : List String)
    (hstar : ∀ w ∈ lexicon, '*' ∉ w.data) (u v : String)
    (h : has_edge (graph.new from_ lexicon).adjacency_list_ u v = true) :
    u ∈ lexicon_filter from_ lexicon ∧ v ∈ lexicon_filter from_ lexicon ∧
      differ_in_one_position u v := by
  rw [has_edge_graph_new] at h
  obtain ⟨kv, hkv, hp⟩ := h
  have hinv : bucket_inv
      (fun x j => False ∨ (x ∈ lexicon_filter from_ lexicon ∧ j < x.length))
      (fill_combo_dict (lexicon_filter from_ lexicon)) := by
    unfold fill_combo_dict
    apply bucket_inv_fill _ (fun _ _ => False) [] (lexicon_filter_nodup from_ lexicon)
    · intro w hw
      exact hstar w ((mem_lexicon_filter from_ lexicon w).1 hw).1
    · intro _ _ _ hq
      exact hq
    · intro kv hkv
      simp at hkv
  obtain ⟨hnd, hmem⟩ := hinv kv hkv
  obtain ⟨hu, hv⟩ := bucket_pair_mem kv.2 u v hp
  obtain ⟨i, hi, hiw⟩ := hmem u hu
  obtain ⟨j, hj, hjw⟩ := hmem v hv
  rcases hi with hi | ⟨hi1, hi2⟩
  · exact absurd hi id
  rcases hj with hj | ⟨hj1, hj2⟩
  · exact absurd hj id
  have hne := bucket_pair_ne kv.2 u v hnd hp
  have hsu := hstar u ((mem_lexicon_filter from_ lexicon u).1 hi1).1
  have hsv := hstar v ((mem_lexicon_filter from_ lexicon v).1 hj1).1
  obtain ⟨_, k2, k3⟩ := wildcard_key_inj u.data v.data i j hi2 hj2 hsu hsv
    (wildcard_eq_data u v i j (hiw.trans hjw.symm))
  refine ⟨hi1, hj1, k2, k3 ?_⟩
  intro e
  apply hne
  cases u
  cases v
  simp_all

end word_ladder


/-! ## The properties of the graph construction, the pairwise check and the search -/

namespace word_ladder

/-- C11: a word is in `lexicon_filter start lexicon` if and only if it is in the lexicon and
has the length of the start word; hence the filtered lexicon contains the start word
whenever the lexicon does. -/
theorem lexicon_filter_spec (from_ : String) (lexicon : List String) :
    (∀ w, w ∈ lexicon_filter from_ lexicon ↔ w ∈ lexicon ∧ w.length = from_.length) ∧
    (from_ ∈ lexicon → from_ ∈ lexicon_filter from_ lexicon) :=
  ⟨fun w => mem_lexicon_filter from_ lexicon w,
    fun h => (mem_lexicon_filter from_ lexicon from_).2 ⟨h, rfl⟩⟩

/-- C12, evaluated at a lexicon whose words contain the wildcard character: both words are
in the filtered lexicon, `add_edges` puts the second into the neighbour set of the first,
and `is_one_char_diff` rejects the pair, which has two mismatching positions. -/
theorem add_edges_links_two_mismatches :
    "a*" ∈ lexicon_filter "a*" ["a*", "*b"] ∧ "*b" ∈ lexicon_filter "a*" ["a*", "*b"] ∧
    has_edge (graph.new "a*" ["a*", "*b"]).adjacency_list_ "a*" "*b" = true ∧
    is_one_char_diff "a*" "*b" = false ∧
    mismatch_positions "a*" "*b" = [0, 1] :=
  ⟨by decide, by decide, by decide, by decide, by decide⟩

/-- C13, evaluated at a lexicon whose only word consists of wildcard characters: the word
is pushed twice onto the bucket of its single key, and `add_edges` makes it a member of its
own neighbour set. -/
theorem add_edges_self_edge :
    fill_combo_dict (lexicon_filter "**" ["**"]) = [("**", ["**", "**"])] ∧
    (graph.new "**" ["**"]).adjacency_list_ = [("**", ["**"])] ∧
    has_edge (graph.new "**" ["**"]).adjacency_list_ "**" "**" = true :=
  ⟨by decide, by decide, by decide⟩

/-- C14: the keys of the adjacency map after construction are exactly the words of the
filtered lexicon, as they already are before the buckets are linked, and every neighbour
set holds only words of the filtered lexicon. -/
theorem add_edges_vertex_set (from_ : String) (lexicon : List String) :
    (∀ w, map_contains (graph.new from_ lexicon).adjacency_list_ w = true
      ↔ w ∈ lexicon_filter from_ lexicon) ∧
    (∀ w, map_contains ((lexicon_filter from_ lexicon).foldl
        (fun adj word => map_update adj word (fun o => o.getD []))
        ([] : List (String × List String))) w = true
      ↔ w ∈ lexicon_filter from_ lexicon) ∧
    (∀ u ns, map_find (graph.new from_ lexicon).adjacency_list_ u = some ns →
      ∀ v ∈ ns, v ∈ lexicon_filter from_ lexicon) := by
  refine ⟨fun w => map_contains_graph_new from_ lexicon w, ?_,
    fun u ns h => (graph_new_neighbours from_ lexicon u ns h).2⟩
  intro w
  constructor
  · have hkeys : ∀ (L : List String),
        (∀ k, map_contains (L.foldl
          (fun adj word => map_update adj word (fun o => o.getD []))
          ([] : List (String × List String))) k = true → k ∈ L) := by
      intro L
      have := foldl_preserves
        (fun adj : List (String × List String) => ∀ k, map_contains adj k = true → k ∈ L)
        (fun adj word => map_update adj word (fun o => o.getD [])) L
        (by
          intro b a ha hb k hk
          rw [map_contains_update] at hk
          by_cases e : a = k
          · exact e ▸ ha
          · simp [e] at hk
            exact hb k hk)
        [] (by intro k hk; simp [map_contains, map_find] at hk)
      exact this
    exact hkeys _ w
  · intro hw
    apply foldl_reach (fun (w : String) (adj : List (String × List String)) =>
      map_contains adj w = true) _ (lexicon_filter from_ lexicon) _ _ [] w hw
    · intro x b a hx
      rw [map_contains_update, hx]
      simp
    · intro b a _
      rw [map_contains_update]
      simp

/-- C15: the adjacency graph built by `add_edges` is undirected: a word is in the neighbour
set of another if and only if the other is in the neighbour set of the first. -/
theorem add_edges_undirected (from_ : String) (lexicon : List String) (u v : String) :
    has_edge (graph.new from_ lexicon).adjacency_list_ u v = true
      ↔ has_edge (graph.new from_ lexicon).adjacency_list_ v u = true :=
  ⟨graph_new_edge_symm from_ lexicon u v, graph_new_edge_symm from_ lexicon v u⟩

/-- C16: `is_one_char_diff a b` is true if and only if the words have equal length and
exactly one position carries different characters; it is false for words of different
length, for identical words, and for words of equal length with two or more mismatching
positions. -/
theorem is_one_char_diff_spec (a b : String) :
    (is_one_char_diff a b = true
      ↔ a.length = b.length ∧ (mismatch_positions a b).length = 1) ∧
    (a.length ≠ b.length → is_one_char_diff a b = false) ∧
    is_one_char_diff a a = false ∧
    (a.length = b.length → 2 ≤ (mismatch_positions a b).length →
      is_one_char_diff a b = false) := by
  have hiff : is_one_char_diff a b = true
      ↔ a.length = b.length ∧ (mismatch_positions a b).length = 1 := by
    rw [is_one_char_diff_iff]
    unfold differ_in_one_position
    constructor
    · rintro ⟨h1, h2⟩
      exact ⟨h1, by rw [mismatch_positions_length a b h1, h2]⟩
    · rintro ⟨h1, h2⟩
      exact ⟨h1, by rw [← mismatch_positions_length a b h1, h2]⟩
  refine ⟨hiff, ?_, ?_, ?_⟩
  · intro hne
    cases h : is_one_char_diff a b with
    | false => rfl
    | true => exact absurd (hiff.1 h).1 hne
  · cases h : is_one_char_diff a a with
    | false => rfl
    | true =>
      have h2 := ((is_one_char_diff_iff a a).1 h).2
      rw [mismatch_count_self] at h2
      cases h2
  · intro _ h2
    cases h : is_one_char_diff a b with
    | false => rfl
    | true =>
      have := (hiff.1 h).2
      omega

/-- The calls of `generate` that end with an error: those whose start word is not in the
lexicon or has 16 or more characters; the error is `out_of_range`, and every other call
returns a list. -/
theorem generate_error_iff (from_ to_ : String) (lexicon : List String) :
    ((∃ e, generate from_ to_ lexicon = .error e) ↔ (from_ ∉ lexicon ∨ 16 ≤ from_.length)) ∧
    (from_ ∉ lexicon ∨ 16 ≤ from_.length →
      generate from_ to_ lexicon = .error .out_of_range) ∧
    (from_ ∈ lexicon → from_.length ≤ 15 →
      ∃ ladders, generate from_ to_ lexicon = .ok ladders) := by
  have hfail : from_ ∉ lexicon ∨ 16 ≤ from_.length →
      generate from_ to_ lexicon = .error .out_of_range := by
    rintro (h | h)
    · exact generate_out_of_range from_ to_ lexicon h
    · exact generate_long from_ to_ lexicon h
  refine ⟨?_, hfail, generate_ok from_ to_ lexicon⟩
  constructor
  · rintro ⟨e, he⟩
    by_cases hin : from_ ∈ lexicon
    · by_cases hl : from_.length ≤ 15
      · obtain ⟨ladders, hl2⟩ := generate_ok from_ to_ lexicon hin hl
        rw [hl2] at he
        cases he
      · exact Or.inr (by omega)
    · exact Or.inl hin
  · intro h
    exact ⟨.out_of_range, hfail h⟩

/-- C18, evaluated at a start word of sixteen characters: the word is in the lexicon and is
a key of the adjacency map, and `generate` ends with `out_of_range` for a target in the
lexicon, for the start itself as target and for a target outside the lexicon. -/
theorem generate_fails_for_long_start :
    "responsibilities" ∈ ["responsibilities", "responsibilitiez"] ∧
    map_contains (graph.new "responsibilities"
      ["responsibilities", "responsibilitiez"]).adjacency_list_ "responsibilities" = true ∧
    generate "responsibilities" "responsibilitiez"
      ["responsibilities", "responsibilitiez"] = .error .out_of_range ∧
    generate "responsibilities" "responsibilities"
      ["responsibilities", "responsibilitiez"] = .error .out_of_range ∧
    generate "responsibilities" "hit"
      ["responsibilities", "responsibilitiez"] = .error .out_of_range :=
  ⟨by decide, by decide, by rfl, by rfl, by rfl⟩

/-- C19: in a lexicon none of whose words contains the wildcard character, the neighbour
set that `add_edges` builds for a word contains another word if and only if both are in
the filtered lexicon, have equal length and differ in exactly one character position. -/
theorem add_edges_one_char_diff (from_ : String) (lexicon : List String)
    (hstar : ∀ w ∈ lexicon, '*' ∉ w.data) (u v : String) :
    has_edge (graph.new from_ lexicon).adjacency_list_ u v = true
      ↔ u ∈ lexicon_filter from_ lexicon ∧ v ∈ lexicon_filter from_ lexicon ∧
        differ_in_one_position u v := by
  constructor
  · exact graph_new_edge_sound from_ lexicon hstar u v
  · rintro ⟨hu, hv, hd⟩
    obtain ⟨hne, i, hi1, hi2, hw⟩ := differ_wildcard u v hd
    exact graph_new_edge_of_wildcard from_ lexicon u v hu hv hne i hi1 hi2 hw

theorem add_edges_one_char_diff_witness :
    (∀ w ∈ ["hit", "hot", "dog", "a"], '*' ∉ w.data) ∧
    (has_edge (graph.new "hit" ["hit", "hot", "dog", "a"]).adjacency_list_ "hit" "hot" = true
      ↔ "hit" ∈ lexicon_filter "hit" ["hit", "hot", "dog", "a"] ∧
        "hot" ∈ lexicon_filter "hit" ["hit", "hot", "dog", "a"] ∧
        differ_in_one_position "hit" "hot") :=
  ⟨by decide,
    add_edges_one_char_diff "hit" ["hit", "hot", "dog", "a"] (by decide) "hit" "hot"⟩

end word_ladder
